import Mathlib

/-!
# Hash table with quadratic probing and hash-indexed binary min-heap

A shallow embedding of `hash_table.hpp` / `hash_table.inl` and
`priority_queue.hpp` / `priority_queue.inl`.

Modelling conventions.

* `unsigned` values are natural numbers.  The probe routine wraps as the
  program does: its counter `i` is incremented modulo `2 ^ 32`, and the
  `double` sum `key % table_size + pow(i, 2)` is converted to `unsigned` by
  `toUnsigned`.  `--num_element` wraps as in C++ (`unsignedDec`), and so do the
  key sums of `decreaseKey` and `increaseKey`.  Three sums are natural-number
  sums, which agree with the `unsigned` ones below `2 ^ 32`: the test
  `num_element + 1 > max_size` of the queue's `insert` (the two differ only at
  `num_element = 4294967295`; the constructor throws for that `maxSize`, so
  the counter reaches the value only through the wrap of `--num_element`), and
  the capacities `table_size * 2 + 1` and `++table_size` (which differ only for
  capacities above `2 ^ 31`).  No theorem below applies `insert` to a queue
  whose counter has wrapped.
* A C++ call that may fail to return a value is a function into `Option`:
  `none` means that the call yields no value (a loop that never exits, or an
  out-of-bounds read).  Every loop carries a fuel argument.  The public
  operations run a probe loop for `probeFuel = 2 ^ 32` iterations, one full
  period of the counter `i`, and `getLoop_none_of_period` shows for `get` that
  further iterations cannot change a `none`.
* `std::sqrt` and the `double` load factor are replaced by the equivalent
  integer tests: for 32-bit `i, n`, `i < sqrt n` holds exactly when
  `i * i < n`, and `(double)(n + 1) / m > 0.5` exactly when `2 * (n + 1) > m`.
* `std::make_unique<T[]>(n)` value-initialises the array: key `0`, a default
  value, status `Empty` (`Pair.init`), resp. key `0` and a default value
  (`KeyValuePair.init`).
-/

namespace HashPQ

/-! ## Hash table: data model -/

/-- The three slot states of `enum class Status`. -/
inductive Status where
  | Empty
  | Deleted
  | Occupied
deriving DecidableEq

/-- The bucket type `struct Pair`. -/
structure Pair (V : Type) where
  key : Nat
  value : V
  stat : Status
deriving DecidableEq

/-- A value-initialised bucket, as produced by `std::make_unique<Pair[]>(n)`. -/
def Pair.init {V : Type} [Inhabited V] : Pair V := ⟨0, default, Status.Empty⟩

/-- The private members of `class HashTable`. -/
structure HashTable (V : Type) where
  hash_table : List (Pair V)
  table_size : Nat
  num_element : Nat
deriving DecidableEq

/-- The result of `--n` on an `unsigned`. -/
def unsignedDec (n : Nat) : Nat := if n = 0 then 4294967295 else n - 1

namespace HashTable

variable {V : Type} [Inhabited V]

/-- The read `hash_table[pos]`.  Every index the member functions below read
is smaller than `table_size` (see `quadraticProb_lt`), which is the length of
the array; `operator==` reads another table's array and checks the bound
explicitly. -/
def slot (t : HashTable V) (pos : Nat) : Pair V := t.hash_table.getD pos Pair.init

/-- The accessor `tableSize()`. -/
def tableSize (t : HashTable V) : Nat := t.table_size

/-- The accessor `numElements()`. -/
def numElements (t : HashTable V) : Nat := t.num_element

/-- The loop of `isPrime`, started at counter `i`: it runs while
`i < sqrt table_size`, that is while `i * i < table_size`. -/
def isPrimeLoop (table_size : Nat) : Nat → Nat → Bool
  | 0, _ => true
  | fuel + 1, i =>
    if i * i < table_size then
      if table_size % i = 0 then false else isPrimeLoop table_size fuel (i + 1)
    else true

/-- The function `isPrime`; the counter starts at `2` and `table_size`
iterations are more than the loop can make. -/
def isPrime (table_size : Nat) : Bool := isPrimeLoop table_size table_size 2

/-- The conversion of the `double` sum `key % table_size + pow(i, 2)` of
`quadraticProb` to `unsigned`.  A sum below `2 ^ 32` is converted exactly.
For a larger sum C++ leaves the conversion undefined; the model takes the low
32 bits, which is what the conversion instruction of x86-64 yields (the sum
itself is exact in `double` while it is below `2 ^ 53`). -/
def toUnsigned (sum : Nat) : Nat := sum % 4294967296

/-- The function `quadraticProb(i, pos, key)`: the new values of the two
reference parameters `(i, pos)`.  The assignment to `pos` converts the sum to
`unsigned`, and `++i` wraps. -/
def quadraticProb (table_size i key : Nat) : Nat × Nat :=
  let pos := toUnsigned (key % table_size + i ^ 2)
  ((i + 1) % 4294967296, if pos > table_size - 1 then pos % table_size else pos)

/-- The number of iterations after which a probe loop is back in its first
state: the counter `i` is an `unsigned`, and the bucket probed depends on `i`
and on the key only.  The member functions run their probe loops with this
fuel. -/
def probeFuel : Nat := 4294967296

/-- The constructor `HashTable(unsigned tableSize)`; `Except.error` is the
thrown `std::runtime_error`. -/
def new (tableSize : Nat) : Except String (HashTable V) :=
  if tableSize = 0 then Except.error "Table size can't be 0"
  else if !isPrime tableSize then Except.error "Table size can't be non prime"
  else Except.ok ⟨List.replicate tableSize Pair.init, tableSize, 0⟩

/-- The probe loop of `get`, at loop state `(i, pos)`.  The result is the
bucket index the returned pointer points into (`some none` is `nullptr`). -/
def getLoop (t : HashTable V) (key : Nat) : Nat → Nat → Nat → Option (Option Nat)
  | 0, _, _ => none
  | fuel + 1, i, pos =>
    if (t.slot pos).stat ≠ Status.Empty then
      if (t.slot pos).key = key ∧ (t.slot pos).stat ≠ Status.Deleted then some (some pos)
      else getLoop t key fuel (quadraticProb t.table_size i key).1
        (quadraticProb t.table_size i key).2
    else some none

/-- The bucket found by `get(key)`: `pos = key % tableSize()`, `i = 1`. -/
def getPos (t : HashTable V) (key : Nat) : Option (Option Nat) :=
  getLoop t key probeFuel 1 (key % t.tableSize)

/-- The function `get(key)`, with the pointee in place of the pointer. -/
def get (t : HashTable V) (key : Nat) : Option (Option V) :=
  (getPos t key).map fun r => r.map fun pos => (t.slot pos).value

/-- The `while(hash_table[pos].stat == Status::Occupied)` loop of `insert`. -/
def insertLoop (t : HashTable V) (key : Nat) : Nat → Nat → Nat → Option Nat
  | 0, _, _ => none
  | fuel + 1, i, pos =>
    if (t.slot pos).stat = Status.Occupied then
      insertLoop t key fuel (quadraticProb t.table_size i key).1
        (quadraticProb t.table_size i key).2
    else some pos

/-- The `while(!isPrime(table_size)) ++table_size` loop of `rehash`. -/
def primeLoop : Nat → Nat → Option Nat
  | 0, _ => none
  | fuel + 1, table_size =>
    if !isPrime table_size then primeLoop fuel (table_size + 1) else some table_size

/-- The functions `insert` and `rehash`, which call each other; the first
argument bounds the nesting of these calls. -/
def insertAux : Nat → HashTable V → Nat → V → Option (Bool × HashTable V)
  | 0, _, _, _ => none
  | depth + 1, t, key, value =>
    match getPos t key with
    | none => none
    | some (some _) => some (false, t)
    | some none =>
      if 2 * (t.num_element + 1) > t.table_size then
        -- rehash(key, value)
        match primeLoop (t.table_size * 2 + 2) (t.table_size * 2 + 1) with
        | none => none
        | some new_size =>
          let fresh : HashTable V := ⟨List.replicate new_size Pair.init, new_size, 0⟩
          let moved := (List.range t.table_size).foldlM
            (fun (acc : HashTable V) (i : Nat) =>
              if (t.slot i).stat = Status.Occupied then
                (insertAux depth acc (t.slot i).key (t.slot i).value).map Prod.snd
              else some acc)
            fresh
          match moved with
          | none => none
          | some acc => (insertAux depth acc key value).map fun r => (true, r.2)
      else
        match insertLoop t key probeFuel 1 (key % t.table_size) with
        | none => none
        | some pos =>
          some (true,
            { t with
              hash_table := t.hash_table.set pos ⟨key, value, Status.Occupied⟩
              num_element := t.num_element + 1 })

/-- The function `insert(key, value)`.  `rehash` re-inserts fewer than
`table_size` pairs into a table of more than twice that size, so the inserts
it makes do not rehash again; a nesting depth of 3 is ample. -/
def insert (t : HashTable V) (key : Nat) (value : V) : Option (Bool × HashTable V) :=
  insertAux 3 t key value

/-- The function `update(key, newValue)`. -/
def update (t : HashTable V) (key : Nat) (newValue : V) : Option (Bool × HashTable V) :=
  match getPos t key with
  | none => none
  | some none => some (false, t)
  | some (some pos) =>
    some (true, { t with hash_table := t.hash_table.set pos { t.slot pos with value := newValue } })

/-- The `while(hash_table[pos].key != key)` loop of `remove`. -/
def removeLoop (t : HashTable V) (key : Nat) : Nat → Nat → Nat → Option Nat
  | 0, _, _ => none
  | fuel + 1, i, pos =>
    if (t.slot pos).key ≠ key then
      removeLoop t key fuel (quadraticProb t.table_size i key).1
        (quadraticProb t.table_size i key).2
    else some pos

/-- The function `remove(key)`. -/
def remove (t : HashTable V) (key : Nat) : Option (Bool × HashTable V) :=
  match getPos t key with
  | none => none
  | some none => some (false, t)
  | some (some _) =>
    match removeLoop t key probeFuel 1 (key % t.tableSize) with
    | none => none
    | some pos =>
      some (true,
        { t with
          hash_table := t.hash_table.set pos { t.slot pos with stat := Status.Deleted }
          num_element := unsignedDec t.num_element })

/-- The free function `isSamePair(p1, p2)`. -/
def isSamePair [DecidableEq V] (p1 p2 : Pair V) : Bool :=
  if p1.key = p2.key ∧ p1.value = p2.value ∧ p1.stat = p2.stat then true else false

/-- The `while(rhs.hash_table[pos].key != hash_table[i].key)` loop of
`operator==`.  It reads the array of `rhs` (a read past its end yields no
result) and advances with `quadraticProb` of `this`. -/
def eqFindLoop (this rhs : HashTable V) (key : Nat) : Nat → Nat → Nat → Option Nat
  | 0, _, _ => none
  | fuel + 1, iter, pos =>
    match rhs.hash_table[pos]? with
    | none => none
    | some p =>
      if p.key ≠ key then
        eqFindLoop this rhs key fuel (quadraticProb this.table_size iter key).1
          (quadraticProb this.table_size iter key).2
      else some pos

/-- The `for(unsigned i = 0; i < size; i++)` loop of `operator==`, over the
remaining indices. -/
def eqScan [DecidableEq V] (this rhs : HashTable V) : List Nat → Option Bool
  | [] => some true
  | i :: rest =>
    if (this.slot i).stat = Status.Occupied then
      match getPos rhs (this.slot i).key with
      | none => none
      | some none => some false
      | some (some _) =>
        match eqFindLoop this rhs (this.slot i).key probeFuel 1
            ((this.slot i).key % rhs.tableSize) with
        | none => none
        | some pos =>
          if !isSamePair (this.slot i) (rhs.slot pos) then some false
          else eqScan this rhs rest
    else eqScan this rhs rest

/-- The function `operator==`. -/
def eq [DecidableEq V] (this rhs : HashTable V) : Option Bool :=
  if this.num_element ≠ rhs.numElements then some false
  else
    let size := if this.table_size < rhs.tableSize then this.table_size else rhs.tableSize
    eqScan this rhs (List.range size)

/-- The function `operator!=`. -/
def ne [DecidableEq V] (this rhs : HashTable V) : Option Bool :=
  (eq this rhs).map fun r => if r then false else true

/-- One iteration of the two copy loops of `operator+`: bucket `i` of `src` is
inserted into `acc` when it is `Occupied`. -/
def plusStep (src acc : HashTable V) (i : Nat) : Option (HashTable V) :=
  if (src.slot i).stat = Status.Occupied then
    (insert acc (src.slot i).key (src.slot i).value).map Prod.snd
  else some acc

/-- The function `operator+`; an exception thrown by the constructor leaves
no result. -/
def plus (this rhs : HashTable V) : Option (HashTable V) :=
  match (new this.table_size : Except String (HashTable V)) with
  | Except.error _ => none
  | Except.ok sum_hash =>
    ((List.range this.table_size).foldlM (plusStep this) sum_hash).bind fun acc =>
      (List.range rhs.table_size).foldlM (plusStep rhs) acc

/-! ### Sequences of calls -/

/-- A call of one of the mutating member functions. -/
inductive Op (V : Type) where
  | insert (key : Nat) (value : V)
  | update (key : Nat) (newValue : V)
  | remove (key : Nat)

/-- The effect of one call: its return value and the table afterwards. -/
def applyOp (t : HashTable V) : Op V → Option (Bool × HashTable V)
  | Op.insert key value => insert t key value
  | Op.update key newValue => update t key newValue
  | Op.remove key => remove t key

/-- The calls of a list made one after the other: the return values and the
final table, or `none` when one of the calls does not return. -/
def runOps (t : HashTable V) : List (Op V) → Option (List Bool × HashTable V)
  | [] => some ([], t)
  | op :: rest =>
    match applyOp t op with
    | none => none
    | some (b, t1) => (runOps t1 rest).map fun r => (b :: r.1, r.2)

/-- The calls of a list made on a newly constructed `HashTable(tableSize)`. -/
def build (tableSize : Nat) (ops : List (Op V)) : Option (List Bool × HashTable V) :=
  match (new tableSize : Except String (HashTable V)) with
  | Except.error _ => none
  | Except.ok t => runOps t ops

/-- The (key, value) pairs a table holds, in bucket order. -/
def contents (t : HashTable V) : List (Nat × V) :=
  ((List.range t.table_size).filter fun i => (t.slot i).stat = Status.Occupied).map
    fun i => ((t.slot i).key, (t.slot i).value)

/-! ### Concrete tables used below -/

/-- The calls `insert(k, k + 1000)` for the keys of a list. -/
def insertCalls (keys : List Nat) : List (Op Nat) :=
  keys.map fun k => Op.insert k (k + 1000)

/-- The bucket examined in the `j`-th iteration of a probe loop that is in
state `(i, pos)`. -/
def probeAt (m key i pos : Nat) : Nat → Nat
  | 0 => pos
  | j + 1 => (quadraticProb m (i + j) key).2

/-- The exit test of the loop of `get` at a bucket: the bucket is `Empty`, or
it holds the key and is not `Deleted`. -/
def getStops (t : HashTable V) (key pos : Nat) : Prop :=
  (t.slot pos).stat = Status.Empty ∨
    ((t.slot pos).key = key ∧ (t.slot pos).stat ≠ Status.Deleted)

end HashTable

/-! ### Concrete call sequences for the hash-table claims -/

namespace HashTable

/-- Three insert/remove rounds on a table of capacity 3; the last key stays. -/
def tombstoneCalls : List (Op Nat) :=
  [Op.insert 0 10, Op.remove 0, Op.insert 1 11, Op.remove 1, Op.insert 2 12]

/-- A table of capacity 7 holding the single pair (0, 5). -/
def eqLeft : HashTable Nat :=
  ⟨[⟨0, 5, Status.Occupied⟩, Pair.init, Pair.init, Pair.init, Pair.init, Pair.init,
    Pair.init], 7, 1⟩

/-- The calls that leave the pair (0, 5) in the fourth bucket of the probe
sequence of key 0 in a table of capacity 11. -/
def eqRightCalls : List (Op Nat) :=
  [Op.insert 11 1, Op.insert 1 2, Op.insert 4 3, Op.insert 0 5, Op.remove 11, Op.remove 1,
   Op.remove 4]

/-- The table the calls `eqRightCalls` produce from `HashTable(11)`. -/
def eqRight : HashTable Nat :=
  ⟨[⟨11, 1, Status.Deleted⟩, ⟨1, 2, Status.Deleted⟩, Pair.init, Pair.init,
    ⟨4, 3, Status.Deleted⟩, Pair.init, Pair.init, Pair.init, Pair.init,
    ⟨0, 5, Status.Occupied⟩, Pair.init], 11, 1⟩

/-- The table after `insert(5, 1)` on `HashTable(7)`. -/
def neLeft : HashTable Nat :=
  ⟨[Pair.init, Pair.init, Pair.init, Pair.init, Pair.init, ⟨5, 1, Status.Occupied⟩,
    Pair.init], 7, 1⟩

/-- The table after `insert(1, 2)` on `HashTable(3)`. -/
def neRight : HashTable Nat :=
  ⟨[Pair.init, ⟨1, 2, Status.Occupied⟩, Pair.init], 3, 1⟩

/-- A table of capacity 3 holding the pair (1, 7). -/
def dupTable : HashTable Nat :=
  ⟨[Pair.init, ⟨1, 7, Status.Occupied⟩, Pair.init], 3, 1⟩

end HashTable

/-! ## Priority queue: data model and operations -/

/-- The heap entry type `struct KeyValuePair`. -/
structure KeyValuePair (V : Type) where
  key : Nat
  value : V
deriving DecidableEq

/-- A value-initialised heap entry, as produced by
`std::make_unique<KeyValuePair[]>(n)`. -/
def KeyValuePair.init {V : Type} [Inhabited V] : KeyValuePair V := ⟨0, default⟩

/-- The private members of `class PriorityQueue`; the internal table maps a
key to an index of `binary_heap`. -/
structure PriorityQueue (V : Type) where
  binary_heap : List (KeyValuePair V)
  ht : HashTable Nat
  max_size : Nat
  num_element : Nat
deriving DecidableEq

namespace PriorityQueue

variable {V : Type} [Inhabited V]

/-- The read `binary_heap[i]`.  The array has `max_size + 1` entries; the
indices read by the member functions are at most `num_element` or are
compared with it first.  A read past the end of the array, which the program
can make only when `num_element` exceeds `max_size`, is a read out of bounds
in C++; the model yields a value-initialised entry for it. -/
def heap (pq : PriorityQueue V) (i : Nat) : KeyValuePair V :=
  pq.binary_heap.getD i KeyValuePair.init

/-- The accessor `numElements()`. -/
def numElements (pq : PriorityQueue V) : Nat := pq.num_element

/-- The accessor `maxSize()`. -/
def maxSize (pq : PriorityQueue V) : Nat := pq.max_size

/-- The function `PriorityQueue::isPrime`, whose body is that of
`HashTable::isPrime`. -/
def isPrime (table_size : Nat) : Bool := HashTable.isPrimeLoop table_size table_size 2

/-- The `while(!isPrime(table_size)) ++table_size` loop of `nextPrime`. -/
def nextPrimeLoop : Nat → Nat → Option Nat
  | 0, _ => none
  | fuel + 1, table_size =>
    if !isPrime table_size then nextPrimeLoop fuel (table_size + 1) else some table_size

/-- The function `nextPrime(maxSize)`. -/
def nextPrime (maxSize : Nat) : Option Nat := nextPrimeLoop (maxSize + 2) maxSize

/-- The constructor `PriorityQueue(unsigned maxSize)`: the member initialiser
constructs the table with `nextPrime(maxSize)` buckets, then the body runs.
`none` stands for a constructor that does not return, `Except.error` for a
thrown `std::runtime_error`. -/
def new (maxSize : Nat) : Option (Except String (PriorityQueue V)) :=
  match nextPrime maxSize with
  | none => none
  | some size =>
    match (HashTable.new size : Except String (HashTable Nat)) with
    | Except.error e => some (Except.error e)
    | Except.ok ht =>
      if maxSize = 0 then some (Except.error "Max Size can't be zero")
      else some (Except.ok ⟨List.replicate (maxSize + 1) KeyValuePair.init, ht, maxSize, 0⟩)

/-- The function `swap(pos_1, pos_2)`. -/
def swap (pq : PriorityQueue V) (pos_1 pos_2 : Nat) : PriorityQueue V :=
  let temp := pq.heap pos_1
  { pq with binary_heap := (pq.binary_heap.set pos_1 (pq.heap pos_2)).set pos_2 temp }

/-- The call `ht.update(key, index)` on the internal table. -/
def htUpdate (pq : PriorityQueue V) (key index : Nat) : Option (PriorityQueue V) :=
  (HashTable.update pq.ht key index).map fun r => { pq with ht := r.2 }

/-- The three statements every branch of `percolate` executes before it moves
`key_pos` to `other`: `swap(key_pos, other)`,
`ht.update(binary_heap[key_pos].key, key_pos)` and
`ht.update(binary_heap[other].key, other)`. -/
def swapUpdate (pq : PriorityQueue V) (key_pos other : Nat) : Option (PriorityQueue V) :=
  ((pq.swap key_pos other).htUpdate ((pq.swap key_pos other).heap key_pos).key key_pos).bind
    fun pq1 => pq1.htUpdate (pq1.heap other).key other

/-- The loop condition of `percolate`. -/
def percolateCond (pq : PriorityQueue V) (key_pos : Nat) : Prop :=
  (key_pos / 2 ≥ 1 ∧ (pq.heap key_pos).key < (pq.heap (key_pos / 2)).key) ∨
  (key_pos * 2 ≤ pq.num_element ∧ (pq.heap key_pos).key > (pq.heap (key_pos * 2)).key) ∨
  (key_pos * 2 + 1 ≤ pq.num_element ∧
    (pq.heap key_pos).key > (pq.heap (key_pos * 2 + 1)).key)

instance (pq : PriorityQueue V) (key_pos : Nat) : Decidable (percolateCond pq key_pos) := by
  unfold percolateCond
  exact inferInstance

/-- The loop of `percolate`, at position `key_pos`. -/
def percolateLoop : Nat → PriorityQueue V → Nat → Option (PriorityQueue V × Nat)
  | 0, _, _ => none
  | fuel + 1, pq, key_pos =>
    if percolateCond pq key_pos then
      if (pq.heap key_pos).key < (pq.heap (key_pos / 2)).key then
        (pq.swapUpdate key_pos (key_pos / 2)).bind fun pq1 =>
          percolateLoop fuel pq1 (key_pos / 2)
      else if key_pos * 2 ≤ pq.num_element ∧ key_pos * 2 + 1 ≤ pq.num_element ∧
          (pq.heap key_pos).key > (pq.heap (key_pos * 2)).key ∧
          (pq.heap key_pos).key > (pq.heap (key_pos * 2 + 1)).key then
        if (pq.heap (key_pos * 2)).key < (pq.heap (key_pos * 2 + 1)).key then
          (pq.swapUpdate key_pos (key_pos * 2)).bind fun pq1 =>
            percolateLoop fuel pq1 (key_pos * 2)
        else if (pq.heap (key_pos * 2)).key > (pq.heap (key_pos * 2 + 1)).key then
          (pq.swapUpdate key_pos (key_pos * 2 + 1)).bind fun pq1 =>
            percolateLoop fuel pq1 (key_pos * 2 + 1)
        else percolateLoop fuel pq key_pos
      else if (pq.heap key_pos).key > (pq.heap (key_pos * 2)).key then
        (pq.swapUpdate key_pos (key_pos * 2)).bind fun pq1 =>
          percolateLoop fuel pq1 (key_pos * 2)
      else if (pq.heap key_pos).key > (pq.heap (key_pos * 2 + 1)).key then
        (pq.swapUpdate key_pos (key_pos * 2 + 1)).bind fun pq1 =>
          percolateLoop fuel pq1 (key_pos * 2 + 1)
      else percolateLoop fuel pq key_pos
    else some (pq, key_pos)

/-- The function `percolate(pos)`: the queue afterwards and the returned
position.  The entry moves up at most `pos` times and then down at most
`num_element` times. -/
def percolate (pq : PriorityQueue V) (pos : Nat) : Option (PriorityQueue V × Nat) :=
  percolateLoop (pos + pq.num_element + 1) pq pos

/-- The function `get(key)`, with the pointee in place of the pointer. -/
def get (pq : PriorityQueue V) (key : Nat) : Option (Option V) :=
  (HashTable.get pq.ht key).map fun r => r.map fun index => (pq.heap index).value

/-- The function `insert(key, value)`. -/
def insert (pq : PriorityQueue V) (key : Nat) (value : V) :
    Option (Bool × PriorityQueue V) :=
  match pq.get key with
  | none => none
  | some found =>
    if found.isSome ∨ pq.num_element + 1 > pq.max_size then some (false, pq)
    else
      match percolate
          { pq with
            binary_heap := pq.binary_heap.set (pq.num_element + 1) ⟨key, value⟩
            num_element := pq.num_element + 1 }
          (pq.num_element + 1) with
      | none => none
      | some (pq1, key_pos) =>
        (HashTable.insert pq1.ht key key_pos).map fun r => (true, { pq1 with ht := r.2 })

/-- The function `getMinKey()`: the pointee of the returned pointer
`&(binary_heap[1].key)`, which is never null. -/
def getMinKey (pq : PriorityQueue V) : Option Nat := some (pq.heap 1).key

/-- The function `getMinValue()`: the pointee of the returned pointer
`&(binary_heap[1].value)`, which is never null. -/
def getMinValue (pq : PriorityQueue V) : Option V := some (pq.heap 1).value

/-- The function `deleteMin()`. -/
def deleteMin (pq : PriorityQueue V) : Option (Bool × PriorityQueue V) :=
  if pq.num_element = 0 then some (false, pq)
  else
    match HashTable.remove pq.ht (pq.heap 1).key with
    | none => none
    | some (_, ht1) =>
      (percolate
          { pq with
            ht := ht1
            binary_heap := pq.binary_heap.set 1 (pq.heap pq.num_element)
            num_element := pq.num_element - 1 }
          1).map fun r => (true, r.1)

/-! ### Sequences of calls -/

/-- A call of `insert` or of `deleteMin`. -/
inductive Call (V : Type) where
  | insert (key : Nat) (value : V)
  | deleteMin

/-- The calls of a list made one after the other, every `insert` returning
true: the final queue, or `none` when a call does not return or an `insert`
returns false. -/
def runCalls (pq : PriorityQueue V) : List (Call V) → Option (PriorityQueue V)
  | [] => some pq
  | Call.insert key value :: rest =>
    match pq.insert key value with
    | some (true, pq1) => runCalls pq1 rest
    | _ => none
  | Call.deleteMin :: rest =>
    match pq.deleteMin with
    | some (_, pq1) => runCalls pq1 rest
    | none => none

/-- The keys of the `insert` calls of a list. -/
def insertedKeys : List (Call V) → List Nat
  | [] => []
  | Call.insert key _ :: rest => key :: insertedKeys rest
  | Call.deleteMin :: rest => insertedKeys rest

/-- The pairs of a list without those of least key. -/
def withoutMin (l : List (Nat × V)) : List (Nat × V) :=
  l.filter fun e => l.any fun e1 => decide (e1.1 < e.1)

/-- The reference for the contents of the queue, following the claim's
words: the pairs inserted and not yet removed, where `deleteMin` removes the
pair of least key. -/
def pending (l : List (Nat × V)) : List (Call V) → List (Nat × V)
  | [] => l
  | Call.insert key value :: rest => pending (l ++ [(key, value)]) rest
  | Call.deleteMin :: rest => pending (withoutMin l) rest

/-- The loop "call `deleteMin()` until it returns false", which calls
`getMinKey()` before each `deleteMin()` and reads the key it points to when
the call succeeds: the keys read before the successful calls and the final
queue.  A null pointer from `getMinKey()` leaves no key to read. -/
def drain : Nat → PriorityQueue V → Option (List Nat × PriorityQueue V)
  | 0, _ => none
  | fuel + 1, pq =>
    let read := pq.getMinKey
    match pq.deleteMin with
    | none => none
    | some (false, pq1) => some ([], pq1)
    | some (true, pq1) =>
      match read with
      | none => none
      | some key => (drain fuel pq1).map fun r => (key :: r.1, r.2)

/-- The calls `insert(k, v)` for the pairs of a list. -/
def insertAll (l : List (Nat × V)) : List (Call V) :=
  l.map fun e => Call.insert e.1 e.2

end PriorityQueue

/-! ### Predicates used in the proofs -/

/-- The min-heap order of keys `h 1 .. h n`. -/
def IsHeap (h : Nat → Nat) (n : Nat) : Prop :=
  ∀ i, 2 ≤ i → i ≤ n → h (i / 2) ≤ h i

/-- The min-heap order everywhere except between position `kp` and its
parent and children, whose parent in turn is not above the children of `kp`. -/
def AlmostHeap (h : Nat → Nat) (n kp : Nat) : Prop :=
  (∀ i, 2 ≤ i → i ≤ n → i ≠ kp → i / 2 ≠ kp → h (i / 2) ≤ h i) ∧
  (∀ c, 2 ≤ kp → c ≤ n → c / 2 = kp → h (kp / 2) ≤ h c)

/-- An indexed family with the entries at `a` and `b` exchanged. -/
def swapFn {α : Type} (h : Nat → α) (a b : Nat) : Nat → α :=
  fun i => if i = b then h a else if i = a then h b else h i

/-- The internal table is well formed: a positive capacity that is the length
of the bucket array. -/
def TableOk {V : Type} (t : HashTable V) : Prop :=
  0 < t.table_size ∧ t.hash_table.length = t.table_size

/-- The key is found by `get`: the probe loop returns a bucket. -/
def Found {V : Type} [Inhabited V] (t : HashTable V) (key : Nat) : Prop :=
  ∃ pos, HashTable.getPos t key = some (some pos)

namespace PriorityQueue

variable {V : Type} [Inhabited V]

/-- The key stored at an index of the heap array. -/
def keyAt (pq : PriorityQueue V) (i : Nat) : Nat := (pq.heap i).key

/-- The heap array is well formed: it has `max_size + 1` entries, at most
`max_size` of them live, the unused entry 0 has key 0, and the live keys are
pairwise distinct. -/
def HeapWf (pq : PriorityQueue V) : Prop :=
  pq.binary_heap.length = pq.max_size + 1 ∧ pq.num_element ≤ pq.max_size ∧
  pq.keyAt 0 = 0 ∧
  ∀ i j, 1 ≤ i → i ≤ pq.num_element → 1 ≤ j → j ≤ pq.num_element →
    pq.keyAt i = pq.keyAt j → i = j

/-- Two queues have the same sizes and the same set of live entries. -/
def SameLive (pq pq1 : PriorityQueue V) : Prop :=
  pq1.num_element = pq.num_element ∧ pq1.max_size = pq.max_size ∧
  ∀ e, (∃ i, 1 ≤ i ∧ i ≤ pq1.num_element ∧ pq1.heap i = e) ↔
    (∃ i, 1 ≤ i ∧ i ≤ pq.num_element ∧ pq.heap i = e)

/-- The internal tables of two queues have the same shape and answer every
`get` alike. -/
def SameTable (pq pq1 : PriorityQueue V) : Prop :=
  pq1.ht.table_size = pq.ht.table_size ∧
  pq1.ht.hash_table.length = pq.ht.hash_table.length ∧
  ∀ k, HashTable.getPos pq1.ht k = HashTable.getPos pq.ht k

/-- The move one iteration of `percolate` makes from `kp` to `c`: up to the
parent, whose key is larger, or down to a child of least key, which is
smaller. -/
def StepTo (pq : PriorityQueue V) (kp c : Nat) : Prop :=
  (2 ≤ kp ∧ c = kp / 2 ∧ pq.keyAt kp < pq.keyAt c) ∨
  (¬ pq.keyAt kp < pq.keyAt (kp / 2) ∧ c / 2 = kp ∧ c ≤ pq.num_element ∧
    pq.keyAt c < pq.keyAt kp ∧
    ∀ s, s ≤ pq.num_element → s / 2 = kp → pq.keyAt c ≤ pq.keyAt s)

/-- The live entries of the queue are the pairs of the list. -/
def Content (pq : PriorityQueue V) (l : List (Nat × V)) : Prop :=
  ∀ e : Nat × V, e ∈ l ↔ ∃ i, 1 ≤ i ∧ i ≤ pq.num_element ∧ pq.heap i = ⟨e.1, e.2⟩

/-- Every live key is found by `get` of the internal table. -/
def Sync (pq : PriorityQueue V) : Prop :=
  ∀ i, 1 ≤ i → i ≤ pq.num_element → Found pq.ht (pq.keyAt i)

/-- The invariant of the queue with respect to the list of pairs it holds. -/
def Inv (pq : PriorityQueue V) (l : List (Nat × V)) : Prop :=
  HeapWf pq ∧ IsHeap pq.keyAt pq.num_element ∧ Content pq l ∧ TableOk pq.ht ∧ Sync pq

end PriorityQueue

/-! ### Concrete queues for the priority-queue claims -/

namespace PriorityQueue

/-- The queue `PriorityQueue(5)` right after construction. -/
def demoStart : PriorityQueue Nat :=
  ⟨List.replicate 6 KeyValuePair.init, ⟨List.replicate 5 Pair.init, 5, 0⟩, 5, 0⟩

/-- The pairs of the scenario of the specification: keys 10, 3 and 7. -/
def demoPairs : List (Nat × Nat) := [(10, 1), (3, 2), (7, 3)]

/-- The three inserts of `demoPairs` followed by one `deleteMin`. -/
def demoCalls : List (Call Nat) :=
  [Call.insert 10 1, Call.insert 3 2, Call.insert 7 3, Call.deleteMin]

/-- The internal table after the three inserts of `demoPairs`; the third
insert has made it rehash from 5 to 11 buckets. -/
def demoTable (stat3 : Status) (n : Nat) : HashTable Nat :=
  ⟨[Pair.init, Pair.init, Pair.init, ⟨3, 1, stat3⟩, Pair.init, Pair.init, Pair.init,
    ⟨7, 3, Status.Occupied⟩, Pair.init, Pair.init, ⟨10, 2, Status.Occupied⟩], 11, n⟩

/-- The queue after the three inserts of `demoPairs`. -/
def demoBuilt : PriorityQueue Nat :=
  ⟨[⟨0, 0⟩, ⟨3, 2⟩, ⟨10, 1⟩, ⟨7, 3⟩, ⟨0, 0⟩, ⟨0, 0⟩], demoTable Status.Occupied 3, 5, 3⟩

/-- The queue after the calls `demoCalls`. -/
def demoQueue : PriorityQueue Nat :=
  ⟨[⟨0, 0⟩, ⟨7, 3⟩, ⟨10, 1⟩, ⟨7, 3⟩, ⟨0, 0⟩, ⟨0, 0⟩], demoTable Status.Deleted 2, 5, 2⟩

end PriorityQueue

/-! ## Second part: the remaining operations -/

/-- The result of `a - b` on `unsigned` operands. -/
def unsignedSub (a b : Nat) : Nat := (a + 4294967296 - b) % 4294967296

/-- The result of `a + b` on `unsigned` operands. -/
def unsignedAdd (a b : Nat) : Nat := (a + b) % 4294967296

namespace HashTable

variable {V : Type} [Inhabited V]

/-- One iteration of the loop of `removeAllByValue`, at bucket `i`: the
counter `num_deleted` and the table. -/
def removeAllStep [DecidableEq V] (value : V) (acc : Nat × HashTable V) (i : Nat) :
    Nat × HashTable V :=
  if (acc.2.slot i).value = value then
    if (acc.2.slot i).stat = Status.Occupied then
      (acc.1 + 1,
        { acc.2 with
          hash_table := acc.2.hash_table.set i { acc.2.slot i with stat := Status.Deleted }
          num_element := unsignedDec acc.2.num_element })
    else acc
  else acc

/-- The function `removeAllByValue(value)`: the returned count and the table
afterwards. -/
def removeAllByValue [DecidableEq V] (t : HashTable V) (value : V) : Nat × HashTable V :=
  (List.range t.tableSize).foldl (removeAllStep value) (0, t)

end HashTable

namespace PriorityQueue

variable {V : Type} [Inhabited V]

/-- The statements of `decreaseKey` and `increaseKey` after the two tests,
with the new key `newKey` of the entry at `pos`: `ht.remove(key)`, the
assignment to `binary_heap[pos].key`, `pos = percolate(pos)` and
`ht.insert(binary_heap[pos].key, pos)`. -/
def changeKey (pq : PriorityQueue V) (key pos newKey : Nat) :
    Option (Bool × PriorityQueue V) :=
  match HashTable.remove pq.ht key with
  | none => none
  | some (_, ht1) =>
    match percolate
        { pq with
          ht := ht1
          binary_heap := pq.binary_heap.set pos { pq.heap pos with key := newKey } }
        pos with
    | none => none
    | some (pq1, pos1) =>
      (HashTable.insert pq1.ht (pq1.heap pos1).key pos1).map
        fun r => (true, { pq1 with ht := r.2 })

/-- The function `decreaseKey(key, change)`. -/
def decreaseKey (pq : PriorityQueue V) (key change : Nat) : Option (Bool × PriorityQueue V) :=
  if change = 0 then some (false, pq)
  else
    match HashTable.get pq.ht key with
    | none => none
    | some none => some (false, pq)
    | some (some pos) =>
      match HashTable.get pq.ht (unsignedSub (pq.heap pos).key change) with
      | none => none
      | some (some _) => some (false, pq)
      | some none => changeKey pq key pos (unsignedSub (pq.heap pos).key change)

/-- The function `increaseKey(key, change)`. -/
def increaseKey (pq : PriorityQueue V) (key change : Nat) : Option (Bool × PriorityQueue V) :=
  if change = 0 then some (false, pq)
  else
    match HashTable.get pq.ht key with
    | none => none
    | some none => some (false, pq)
    | some (some pos) =>
      match HashTable.get pq.ht (unsignedAdd (pq.heap pos).key change) with
      | none => none
      | some (some _) => some (false, pq)
      | some none => changeKey pq key pos (unsignedAdd (pq.heap pos).key change)

/-- The function `remove(key)`. -/
def remove (pq : PriorityQueue V) (key : Nat) : Option (Bool × PriorityQueue V) :=
  match HashTable.get pq.ht key with
  | none => none
  | some none => some (false, pq)
  | some (some pos) =>
    match HashTable.remove pq.ht key with
    | none => none
    | some (_, ht1) =>
      match percolate
          { pq with
            ht := ht1
            binary_heap := pq.binary_heap.set pos (pq.heap pq.num_element)
            num_element := unsignedDec pq.num_element }
          pos with
      | none => none
      | some (pq1, pos1) => (pq1.htUpdate key pos1).map fun pq2 => (true, pq2)

/-- A call of one of the public mutating member functions. -/
inductive QueueOp (V : Type) where
  | insert (key : Nat) (value : V)
  | deleteMin
  | remove (key : Nat)
  | decreaseKey (key change : Nat)
  | increaseKey (key change : Nat)

/-- The effect of one call: its return value and the queue afterwards. -/
def applyQueueOp (pq : PriorityQueue V) : QueueOp V → Option (Bool × PriorityQueue V)
  | QueueOp.insert key value => pq.insert key value
  | QueueOp.deleteMin => pq.deleteMin
  | QueueOp.remove key => pq.remove key
  | QueueOp.decreaseKey key change => pq.decreaseKey key change
  | QueueOp.increaseKey key change => pq.increaseKey key change

/-- The calls of a list made one after the other: the return values and the
final queue, or `none` when one of the calls does not return. -/
def runQueueOps (pq : PriorityQueue V) : List (QueueOp V) → Option (List Bool × PriorityQueue V)
  | [] => some ([], pq)
  | op :: rest =>
    match applyQueueOp pq op with
    | none => none
    | some (b, pq1) => (runQueueOps pq1 rest).map fun r => (b :: r.1, r.2)

/-- The calls of a list made on a newly constructed `PriorityQueue(maxSize)`. -/
def buildQueue (maxSize : Nat) (ops : List (QueueOp V)) :
    Option (List Bool × PriorityQueue V) :=
  match (new maxSize : Option (Except String (PriorityQueue V))) with
  | some (Except.ok pq) => runQueueOps pq ops
  | _ => none

/-- The live entries `binary_heap[1] .. binary_heap[num_element]` as pairs. -/
def liveEntries (pq : PriorityQueue V) : List (Nat × V) :=
  (List.range pq.num_element).map fun i => ((pq.heap (i + 1)).key, (pq.heap (i + 1)).value)

end PriorityQueue

/-! ## Third part: predicates for the probe bound -/

namespace HashTable

variable {V : Type} [Inhabited V]

/-- The number of Occupied buckets of a table. -/
def occupiedCount (t : HashTable V) : Nat :=
  ((List.range t.table_size).filter fun i => (t.slot i).stat = Status.Occupied).length

/-- No bucket of the table is Deleted. -/
def NoDeleted (t : HashTable V) : Prop :=
  ∀ i, i < t.table_size → (t.slot i).stat ≠ Status.Deleted

/-- Three rounds of insert and remove on a table of capacity 3. -/
def churnCalls : List (Op Nat) :=
  [Op.insert 0 10, Op.remove 0, Op.insert 1 11, Op.remove 1, Op.insert 2 12, Op.remove 2]

/-- A table of capacity 5 whose bucket 0 holds the pair (0, 10). -/
def probeTable : HashTable Nat :=
  ⟨[⟨0, 10, Status.Occupied⟩, Pair.init, Pair.init, Pair.init, Pair.init], 5, 1⟩

end HashTable


namespace PriorityQueue

end PriorityQueue


namespace HashTable

/-- The table of capacity `m` whose bucket `p` holds the key `p + m` (a key
whose home bucket is `p`) when `hit p` is true and is Empty otherwise; `n` is
its element count. -/
def tableOf (m : Nat) (hit : Nat → Bool) (n : Nat) : HashTable Nat :=
  ⟨(List.range m).map fun p => if hit p then ⟨p + m, 0, Status.Occupied⟩ else Pair.init, m, n⟩

/-- The bucket that the `j`-th iteration of a probe loop for key 0 examines in
a table of capacity 131101 (see `probeAt_start`). -/
def wrapProbe (j : Nat) : Nat := toUnsigned (j ^ 2) % 131101

/-- Whether one of the first 65551 iterations of a probe loop for key 0
examines bucket `p` of a table of capacity 131101. -/
def wrapHit (p : Nat) : Bool := (List.range 65551).any fun j => wrapProbe j == p

/-- The table of prime capacity 131101 in which exactly the buckets examined by
the first 65551 iterations of a probe loop for key 0 are Occupied; they are
65544 buckets, since the iterations 65536 to 65550 examine seven buckets a
second time. -/
def wrapTable : HashTable Nat := tableOf 131101 wrapHit 65544

end HashTable

/-! # Theorems -/

/-! ## Lemmas on the probe sequence -/

namespace HashTable

variable {V : Type} [Inhabited V]

theorem quadraticProb_fst (m i key : Nat) :
    (quadraticProb m i key).1 = (i + 1) % 4294967296 := rfl

theorem quadraticProb_snd (m i key : Nat) (hm : 0 < m) :
    (quadraticProb m i key).2 = toUnsigned (key % m + i ^ 2) % m := by
  by_cases h : toUnsigned (key % m + i ^ 2) > m - 1
  · simp [quadraticProb, h]
  · have h1 : toUnsigned (key % m + i ^ 2) < m := by omega
    simp [quadraticProb, h, Nat.mod_eq_of_lt h1]

theorem quadraticProb_lt (m i key : Nat) (hm : 0 < m) : (quadraticProb m i key).2 < m := by
  rw [quadraticProb_snd m i key hm]
  exact Nat.mod_lt _ hm

/-- The bucket computed by `quadraticProb` depends on the counter modulo
`2 ^ 32` only. -/
theorem quadraticProb_snd_congr (m i j key : Nat) (h : i % 4294967296 = j % 4294967296) :
    (quadraticProb m i key).2 = (quadraticProb m j key).2 := by
  have hs : toUnsigned (key % m + i ^ 2) = toUnsigned (key % m + j ^ 2) := by
    unfold toUnsigned
    conv_lhs => rw [Nat.add_mod, Nat.pow_mod, h]
    conv_rhs => rw [Nat.add_mod, Nat.pow_mod]
  unfold quadraticProb
  simp only [hs]

/-- While the sum fits an `unsigned`, the bucket is `(key % m + i * i) % m`. -/
theorem quadraticProb_snd_of_lt (m i key : Nat) (hm : 0 < m)
    (h : key % m + i ^ 2 < 4294967296) :
    (quadraticProb m i key).2 = (key % m + i ^ 2) % m := by
  rw [quadraticProb_snd m i key hm]
  unfold toUnsigned
  rw [Nat.mod_eq_of_lt h]

theorem probeAt_succ (m key i pos j : Nat) :
    probeAt m key i pos (j + 1) =
      probeAt m key (quadraticProb m i key).1 (quadraticProb m i key).2 j := by
  cases j with
  | zero => rfl
  | succ j =>
    show (quadraticProb m (i + (j + 1)) key).2 =
      (quadraticProb m ((i + 1) % 4294967296 + j) key).2
    apply quadraticProb_snd_congr
    omega

/-- The bucket of the `j`-th iteration of a probe loop started by a member
function, for a key whose home bucket fits an `unsigned`. -/
theorem probeAt_start (m key j : Nat) (hm : 0 < m) (hk : key % m < 4294967296) :
    probeAt m key 1 (key % m) j = toUnsigned (key % m + j ^ 2) % m := by
  cases j with
  | zero =>
    show key % m = toUnsigned (key % m + 0 ^ 2) % m
    simp [toUnsigned, Nat.mod_eq_of_lt hk, Nat.mod_mod]
  | succ j =>
    show (quadraticProb m (1 + j) key).2 = _
    rw [quadraticProb_snd m _ key hm, Nat.add_comm 1 j]

/-- While the sums fit an `unsigned`, the buckets probed are
`(key % m + j * j) % m`. -/
theorem probeAt_start_of_lt (m key j : Nat) (hm : 0 < m)
    (h : key % m + j ^ 2 < 4294967296) :
    probeAt m key 1 (key % m) j = (key % m + j ^ 2) % m := by
  rw [probeAt_start m key j hm (by omega)]
  unfold toUnsigned
  rw [Nat.mod_eq_of_lt h]

theorem probeAt_start_lt (m key j : Nat) (hm : 0 < m) : probeAt m key 1 (key % m) j < m := by
  cases j with
  | zero => exact Nat.mod_lt _ hm
  | succ j => exact quadraticProb_lt _ _ _ hm

theorem probeAt_start_period (m key j : Nat) (hm : 0 < m) (hk : key % m < 4294967296) :
    probeAt m key 1 (key % m) j = probeAt m key 1 (key % m) (j % 4294967296) := by
  rw [probeAt_start m key j hm hk, probeAt_start m key (j % 4294967296) hm hk]
  unfold toUnsigned
  conv_lhs => rw [Nat.add_mod, Nat.pow_mod]
  conv_rhs => rw [Nat.add_mod (key % m)]

theorem getLoop_eq_none_iff (t : HashTable V) (key fuel : Nat) :
    ∀ i pos, getLoop t key fuel i pos = none ↔
      ∀ j, j < fuel → ¬ getStops t key (probeAt t.table_size key i pos j) := by
  induction fuel with
  | zero => intro i pos; simp [getLoop]
  | succ fuel ih =>
    intro i pos
    rw [getLoop]
    by_cases h1 : (t.slot pos).stat = Status.Empty
    · simp only [h1, ne_eq, not_true_eq_false, if_false]
      constructor
      · intro h; cases h
      · intro h
        exact absurd (Or.inl h1) (h 0 (Nat.succ_pos _))
    · by_cases h2 : (t.slot pos).key = key ∧ (t.slot pos).stat ≠ Status.Deleted
      · simp only [ne_eq, h1, not_false_eq_true, if_true, h2, and_self]
        constructor
        · intro h; cases h
        · intro h
          exact absurd (Or.inr h2) (h 0 (Nat.succ_pos _))
      · rw [if_pos h1, if_neg h2, ih]
        constructor
        · intro h j hj
          cases j with
          | zero =>
            show ¬ getStops t key pos
            rintro (h3 | h3)
            · exact h1 h3
            · exact h2 h3
          | succ j =>
            rw [probeAt_succ]
            exact h j (by omega)
        · intro h j hj
          rw [← probeAt_succ]
          exact h (j + 1) (by omega)

/-- When `get` has not left its loop after `2 ^ 32` iterations it never does:
the counter `i` is then back at its first value, so the probe sequence has
period `2 ^ 32`, and the loop does not write.  So `getPos t key = none` says
that `get(key)` does not terminate. -/
theorem getLoop_none_of_period (t : HashTable V) (key : Nat) (hm : 0 < t.table_size)
    (hk : key % t.table_size < 4294967296) (h : getPos t key = none) :
    ∀ fuel, getLoop t key fuel 1 (key % t.table_size) = none := by
  intro fuel
  have h1 := (getLoop_eq_none_iff t key probeFuel 1 (key % t.table_size)).1 h
  rw [getLoop_eq_none_iff]
  intro j _
  rw [probeAt_start_period _ _ _ hm hk]
  exact h1 _ (Nat.mod_lt _ (by decide))

/-- A set of buckets that the probe routine does not leave and none of which
lets the loop of `get` exit: started inside the set, the loop never exits. -/
theorem getLoop_none_of_closed (t : HashTable V) (key : Nat) (S : Nat → Prop)
    (hstep : ∀ i, S (quadraticProb t.table_size i key).2)
    (hstop : ∀ pos, S pos → ¬ getStops t key pos) :
    ∀ fuel i pos, S pos → getLoop t key fuel i pos = none := by
  intro fuel
  induction fuel with
  | zero => intro i pos _; rfl
  | succ fuel ih =>
    intro i pos hpos
    have hns := hstop pos hpos
    have h1 : (t.slot pos).stat ≠ Status.Empty := fun h => hns (Or.inl h)
    have h2 : ¬ ((t.slot pos).key = key ∧ (t.slot pos).stat ≠ Status.Deleted) :=
      fun h => hns (Or.inr h)
    rw [getLoop, if_pos h1, if_neg h2]
    exact ih _ _ (hstep i)

/-- When no bucket of the table lets the loop of `get` exit, `get(key)` never
returns, whatever buckets the probe routine computes. -/
theorem getLoop_none_of_no_exit (t : HashTable V) (key : Nat) (hm : 0 < t.table_size)
    (hstop : ∀ pos, pos < t.table_size → ¬ getStops t key pos) :
    ∀ fuel i pos, pos < t.table_size → getLoop t key fuel i pos = none :=
  getLoop_none_of_closed t key (fun pos => pos < t.table_size)
    (fun i => quadraticProb_lt _ i key hm) hstop

theorem getPos_none_of_no_exit (t : HashTable V) (key : Nat) (hm : 0 < t.table_size)
    (hstop : ∀ pos, pos < t.table_size → ¬ getStops t key pos) : getPos t key = none :=
  getLoop_none_of_no_exit t key hm hstop _ 1 _ (Nat.mod_lt _ hm)

theorem get_none_of_no_exit (t : HashTable V) (key : Nat) (hm : 0 < t.table_size)
    (hstop : ∀ pos, pos < t.table_size → ¬ getStops t key pos) : get t key = none := by
  unfold get
  rw [getPos_none_of_no_exit t key hm hstop]
  rfl

/-- The functions `insert`, `update` and `remove` call `get` first: they do not
return when `get` does not. -/
theorem calls_none_of_getPos_none (t : HashTable V) (key : Nat) (v : V)
    (h : getPos t key = none) :
    get t key = none ∧ HashTable.insert t key v = none ∧ update t key v = none ∧
      remove t key = none := by
  refine ⟨?_, ?_, ?_, ?_⟩
  · unfold get
    rw [h]
    rfl
  · unfold HashTable.insert
    rw [insertAux, h]
  · unfold update
    rw [h]
  · unfold remove
    rw [h]

theorem isPrimeLoop_eq_true_iff (n fuel : Nat) :
    ∀ i, isPrimeLoop n fuel i = true ↔
      ∀ j, i ≤ j → j < i + fuel → j * j < n → n % j ≠ 0 := by
  induction fuel with
  | zero =>
    intro i
    simp only [isPrimeLoop, true_iff]
    intro j h1 h2
    omega
  | succ fuel ih =>
    intro i
    rw [isPrimeLoop]
    by_cases h1 : i * i < n
    · by_cases h2 : n % i = 0
      · simp only [h1, h2, if_true]
        constructor
        · intro h; cases h
        · intro h
          exact absurd h2 (h i (Nat.le_refl _) (by omega) h1)
      · rw [if_pos h1, if_neg h2, ih]
        constructor
        · intro h j hj1 hj2 hj3
          rcases Nat.eq_or_lt_of_le hj1 with h3 | h3
          · subst h3; exact h2
          · exact h j h3 (by omega) hj3
        · intro h j hj1 hj2 hj3
          exact h j (by omega) (by omega) hj3
    · simp only [h1, if_false, true_iff]
      intro j hj1 _ hj3
      have : i * i ≤ j * j := Nat.mul_le_mul hj1 hj1
      omega

/-- What `isPrime` tests: no `j` with `2 ≤ j` and `j * j < n` divides `n`. -/
theorem isPrime_eq_true_iff (n : Nat) :
    isPrime n = true ↔ ∀ j, 2 ≤ j → j * j < n → n % j ≠ 0 := by
  unfold isPrime
  rw [isPrimeLoop_eq_true_iff]
  constructor
  · intro h j hj1 hj2
    refine h j hj1 ?_ hj2
    have : j ≤ j * j := Nat.le_mul_self j
    omega
  · intro h j hj1 _ hj3
    exact h j hj1 hj3

end HashTable

/-! ## Lemmas on heap order -/

theorem swapFn_left {α : Type} (h : Nat → α) (a b : Nat) : swapFn h a b a = h b := by
  unfold swapFn
  by_cases hab : a = b
  · simp [hab]
  · simp [hab]

theorem swapFn_right {α : Type} (h : Nat → α) (a b : Nat) : swapFn h a b b = h a := by
  simp [swapFn]

theorem swapFn_other {α : Type} (h : Nat → α) (a b i : Nat) (ha : i ≠ a) (hb : i ≠ b) :
    swapFn h a b i = h i := by
  simp [swapFn, ha, hb]

theorem almostHeap_up (h : Nat → Nat) (n kp : Nat) (hA : AlmostHeap h n kp)
    (h2 : 2 ≤ kp) (hn : kp ≤ n) :
    AlmostHeap (swapFn h kp (kp / 2)) n (kp / 2) := by
  obtain ⟨hA1, hA2⟩ := hA
  have hp1 : kp / 2 ≠ kp := by omega
  constructor
  · intro i hi2 hin hip hi2p
    have hikp : i ≠ kp := by
      intro e
      apply hi2p
      rw [e]
    rw [swapFn_other h _ _ i hikp hip]
    by_cases hc : i / 2 = kp
    · rw [hc, swapFn_left]
      exact hA2 i h2 hin hc
    · rw [swapFn_other h _ _ _ hc hi2p]
      exact hA1 i hi2 hin hikp hc
  · intro c hp2 hcn hc
    have hg1 : kp / 2 / 2 ≠ kp := by omega
    have hg2 : kp / 2 / 2 ≠ kp / 2 := by omega
    rw [swapFn_other h _ _ _ hg1 hg2]
    have hgp : h (kp / 2 / 2) ≤ h (kp / 2) := hA1 (kp / 2) hp2 (by omega) hp1 hg1
    by_cases hck : c = kp
    · rw [hck, swapFn_left]
      exact hgp
    · have hcp : c ≠ kp / 2 := by omega
      rw [swapFn_other h _ _ _ hck hcp]
      have := hA1 c (by omega) hcn hck (by omega)
      rw [hc] at this
      exact Nat.le_trans hgp this

theorem almostHeap_down (h : Nat → Nat) (n kp c : Nat) (hA : AlmostHeap h n kp)
    (h1 : 1 ≤ kp) (hcn : c ≤ n) (hc : c / 2 = kp)
    (hs : ∀ s, s ≤ n → s / 2 = kp → h c ≤ h s) :
    AlmostHeap (swapFn h kp c) n c := by
  obtain ⟨hA1, hA2⟩ := hA
  have hckp : c ≠ kp := by omega
  constructor
  · intro i hi2 hin hic hi2c
    by_cases hik : i = kp
    · subst hik
      rw [swapFn_left]
      have hq1 : i / 2 ≠ i := by omega
      rw [swapFn_other h _ _ _ hq1 hi2c]
      exact hA2 c hi2 hcn hc
    · rw [swapFn_other h _ _ i hik hic]
      by_cases hq : i / 2 = kp
      · rw [hq, swapFn_left]
        exact hs i hin hq
      · rw [swapFn_other h _ _ _ hq hi2c]
        exact hA1 i hi2 hin hik hq
  · intro d hc2 hdn hd
    rw [hc, swapFn_left]
    have hdk : d ≠ kp := by omega
    have hdc : d ≠ c := by omega
    rw [swapFn_other h _ _ _ hdk hdc]
    have := hA1 d (by omega) hdn hdk (by omega)
    rw [hd] at this
    exact this

theorem almostHeap_exit (h : Nat → Nat) (n kp : Nat) (hA : AlmostHeap h n kp)
    (hu : ¬ (kp / 2 ≥ 1 ∧ h kp < h (kp / 2)))
    (hl : ¬ (kp * 2 ≤ n ∧ h kp > h (kp * 2)))
    (hr : ¬ (kp * 2 + 1 ≤ n ∧ h kp > h (kp * 2 + 1))) :
    IsHeap h n := by
  obtain ⟨hA1, _⟩ := hA
  intro i hi2 hin
  by_cases hik : i = kp
  · subst hik
    by_contra hlt
    exact hu ⟨by omega, by omega⟩
  · by_cases hq : i / 2 = kp
    · rw [hq]
      rcases Nat.mod_two_eq_zero_or_one i with hm | hm
      · have hi : i = kp * 2 := by omega
        subst hi
        by_contra hlt
        exact hl ⟨hin, by omega⟩
      · have hi : i = kp * 2 + 1 := by omega
        subst hi
        by_contra hlt
        exact hr ⟨hin, by omega⟩
    · exact hA1 i hi2 hin hik hq

/-! ## The search for the next capacity returns -/

namespace HashTable

theorem isPrime_of_prime (p : Nat) (hp : Nat.Prime p) : isPrime p = true := by
  rw [isPrime_eq_true_iff]
  intro j hj2 hjj hmod
  have hdvd : j ∣ p := Nat.dvd_of_mod_eq_zero hmod
  rcases (Nat.dvd_prime hp).1 hdvd with e | e
  · omega
  · rw [e] at hjj
    have : p ≤ p * p := Nat.le_mul_self p
    omega

theorem primeLoop_isSome (fuel : Nat) :
    ∀ s p, s ≤ p → p < s + fuel → isPrime p = true → ∃ r, primeLoop fuel s = some r := by
  induction fuel with
  | zero => intro s p h1 h2 _; omega
  | succ fuel ih =>
    intro s p h1 h2 hp
    rw [primeLoop]
    by_cases e : isPrime s = true
    · exact ⟨s, by simp [e]⟩
    · have hne : s ≠ p := by
        intro x
        rw [x] at e
        exact e hp
      obtain ⟨r, hr⟩ := ih (s + 1) p (by omega) (by omega) hp
      exact ⟨r, by simp [e, hr]⟩

/-- The loop of `rehash` that looks for the new capacity always returns. -/
theorem primeLoop_rehash_isSome (m : Nat) : ∃ r, primeLoop (m * 2 + 2) (m * 2 + 1) = some r := by
  obtain ⟨p, hp, h1, h2⟩ := Nat.exists_prime_lt_and_le_two_mul (m * 2 + 1) (by omega)
  exact primeLoop_isSome _ _ p (by omega) (by omega) (isPrime_of_prime p hp)

end HashTable

namespace PriorityQueue

theorem nextPrimeLoop_eq (fuel s : Nat) : nextPrimeLoop fuel s = HashTable.primeLoop fuel s := by
  induction fuel generalizing s with
  | zero => rfl
  | succ fuel ih =>
    rw [nextPrimeLoop, HashTable.primeLoop, ih]
    rfl

/-- The function `nextPrime` always returns. -/
theorem nextPrime_isSome (maxSize : Nat) : ∃ r, nextPrime maxSize = some r := by
  unfold nextPrime
  rw [nextPrimeLoop_eq]
  by_cases h0 : maxSize = 0
  · rw [h0]
    exact ⟨0, rfl⟩
  · obtain ⟨p, hp, h1, h2⟩ := Nat.exists_prime_lt_and_le_two_mul maxSize h0
    exact HashTable.primeLoop_isSome _ _ p (by omega) (by omega)
      (HashTable.isPrime_of_prime p hp)

/-- The functions `get` and `insert` of the queue call `get` of the table
first: they do not return when it does not. -/
theorem queue_calls_none_of_getPos_none {V : Type} [Inhabited V] (pq : PriorityQueue V)
    (key : Nat) (v : V) (h : HashTable.getPos pq.ht key = none) :
    pq.get key = none ∧ pq.insert key v = none := by
  have hg : pq.get key = none := by
    unfold PriorityQueue.get HashTable.get
    rw [h]
    rfl
  refine ⟨hg, ?_⟩
  unfold PriorityQueue.insert
  rw [hg]

end PriorityQueue

/-! ## Hash table: the claims -/

open HashTable

/-- C2, evaluated at a failing input.  The claim says that after a successful
`remove(k)` the call `get(k)` returns null.  On `HashTable(3)` the calls
insert(0), remove(0), insert(1), remove(1), insert(2) all return true and
leave key 2 present; `remove(2)` then returns true and decrements
`numElements()`, but no bucket is `Empty` any more and `get(2)` does not
return: no bucket lets its loop exit, whatever the number of iterations. -/
theorem C2_get_after_remove_does_not_return :
    ∃ t t1 : HashTable Nat,
      build 3 tombstoneCalls = some ([true, true, true, true, true], t) ∧
      get t 2 = some (some 12) ∧ t.numElements = 1 ∧
      remove t 2 = some (true, t1) ∧ t1.numElements = 0 ∧
      get t1 2 = none ∧
      ∀ fuel, getLoop t1 2 fuel 1 (2 % t1.tableSize) = none := by
  refine ⟨⟨[⟨0, 10, Status.Deleted⟩, ⟨1, 11, Status.Deleted⟩, ⟨2, 12, Status.Occupied⟩], 3, 1⟩,
    ⟨[⟨0, 10, Status.Deleted⟩, ⟨1, 11, Status.Deleted⟩, ⟨2, 12, Status.Deleted⟩], 3, 0⟩,
    by decide!, by decide!, rfl, by decide!, rfl, ?_, ?_⟩
  · exact get_none_of_no_exit _ 2 (by decide) (by unfold getStops; decide)
  · intro fuel
    exact getLoop_none_of_no_exit _ 2 (by decide) (by unfold getStops; decide) fuel 1 _
      (by decide)

/-- C3, evaluated at a failing input.  The claim says that a rehash makes the
capacity the smallest prime that is at least `2m`.  A table of prime capacity
59 holding the 29 keys 0..28 rehashes on `insert(29, v)` (30/59 > 0.5) and
its capacity becomes 121 = 11 * 11, which is not prime; the smallest prime
that is at least 118 is 127. -/
theorem C3_rehash_of_capacity_59_gives_121 :
    Nat.Prime 59 ∧
    ∃ t t1 : HashTable Nat,
      build 59 (insertCalls (List.range 29)) = some (List.replicate 29 true, t) ∧
      t.tableSize = 59 ∧ t.numElements = 29 ∧ get t 29 = some none ∧
      2 * (t.numElements + 1) > t.tableSize ∧
      insert t 29 1029 = some (true, t1) ∧ t1.tableSize = 121 ∧
      ¬ Nat.Prime 121 ∧ Nat.Prime 127 ∧
      ∀ p, Nat.Prime p → 2 * 59 ≤ p → 127 ≤ p := by
  refine ⟨by norm_num, ?_⟩
  have h : ((build 59 (insertCalls (List.range 29))).map fun r =>
      (r.1, r.2.tableSize, r.2.numElements, decide (get r.2 29 = some none),
        decide ((insert r.2 29 1029).map (fun x => (x.1, x.2.tableSize)) =
          some (true, 121)))) =
      some (List.replicate 29 true, 59, 29, true, true) := by decide!
  cases hb : build 59 (insertCalls (List.range 29)) with
  | none => rw [hb] at h; cases h
  | some r =>
    obtain ⟨bs, t⟩ := r
    rw [hb] at h
    simp only [Option.map_some', Option.some.injEq, Prod.mk.injEq, decide_eq_true_eq] at h
    obtain ⟨h1, h2, h3, h4, h5⟩ := h
    cases hi : insert t 29 1029 with
    | none => rw [hi] at h5; cases h5
    | some x =>
      obtain ⟨b, t1⟩ := x
      rw [hi] at h5
      simp only [Option.map_some', Option.some.injEq, Prod.mk.injEq] at h5
      refine ⟨t, t1, by rw [h1], h2, h3, h4, ?_, by rw [hi, h5.1], h5.2, by norm_num,
        by norm_num, ?_⟩
      · rw [h2, h3]
        decide
      · intro p hp hle
        by_contra hlt
        have hlt : p < 127 := by omega
        interval_cases p <;> revert hp <;> norm_num

/-- C4, evaluated at a failing input.  The claim says that `a == b` is true
whenever the two tables hold the same pairs.  `eqLeft` (capacity 7) and the
table `eqRight` built by `eqRightCalls` on capacity 11 both hold exactly the
pair (0, 5), yet `a == b` returns false and `a != b` true: the search in `b`
advances with the capacity of `a` and stops at an Empty bucket whose key
field is 0. -/
theorem C4_eq_of_tables_with_the_same_pairs_is_not_true :
    build 7 [Op.insert 0 5] = some ([true], eqLeft) ∧
    build 11 eqRightCalls = some (List.replicate 7 true, eqRight) ∧
    contents eqLeft = [(0, 5)] ∧ contents eqRight = [(0, 5)] ∧
    eq eqLeft eqRight = some false ∧ ne eqLeft eqRight = some true := by
  refine ⟨by decide!, by decide!, by decide!, by decide!, by decide!, by decide!⟩

/-- C5, evaluated at a failing input.  The claim says that `a == b` is false
whenever the two tables hold different pairs.  `neLeft` (capacity 7) holds
only (5, 1) and `neRight` (capacity 3) holds only (1, 2); `a == b` scans just
the first 3 buckets of `a`, finds none Occupied and returns true, and
`a != b` returns false, while `b == a` returns false. -/
theorem C5_eq_of_tables_with_different_pairs_is_true :
    build 7 [Op.insert 5 1] = some ([true], neLeft) ∧
    build 3 [Op.insert 1 2] = some ([true], neRight) ∧
    contents neLeft = [(5, 1)] ∧ contents neRight = [(1, 2)] ∧
    get neLeft 5 = some (some 1) ∧ get neRight 5 = some none ∧
    eq neLeft neRight = some true ∧ ne neLeft neRight = some false ∧
    eq neRight neLeft = some false := by
  refine ⟨by decide!, by decide!, by decide!, by decide!, by decide!, by decide!, by decide!,
    by decide!, by decide!⟩

/-- C7, evaluated at failing inputs.  The claim says that the constructor
throws for every capacity that is not prime.  `HashTable(4)` and
`HashTable(1)` are constructed without an exception, with `tableSize()` 4 and 1:
`isPrime` only tries divisors `i` with `i * i < tableSize`. -/
theorem C7_constructor_accepts_capacities_4_and_1 :
    (new 4 : Except String (HashTable Nat)) =
        Except.ok ⟨List.replicate 4 Pair.init, 4, 0⟩ ∧
    (new 1 : Except String (HashTable Nat)) =
        Except.ok ⟨List.replicate 1 Pair.init, 1, 0⟩ ∧
    isPrime 4 = true ∧ isPrime 1 = true ∧ ¬ Nat.Prime 4 ∧ ¬ Nat.Prime 1 := by
  refine ⟨rfl, rfl, rfl, rfl, by norm_num, by norm_num⟩

/-- C8: when `get(k)` is non-null, `insert(k, v)` returns false and the table
afterwards is the table before, so `tableSize()`, `numElements()` and the result
of `get` for every key are unchanged. -/
theorem C8_insert_of_present_key_fails_without_change {V : Type} [Inhabited V]
    (t : HashTable V) (k : Nat) (v v0 : V) (h : get t k = some (some v0)) :
    insert t k v = some (false, t) ∧
    ∀ t1, insert t k v = some (false, t1) →
      t1.tableSize = t.tableSize ∧ t1.numElements = t.numElements ∧
      ∀ k1, get t1 k1 = get t k1 := by
  have h1 : insert t k v = some (false, t) := by
    unfold HashTable.get at h
    unfold HashTable.insert HashTable.insertAux
    cases hg : getPos t k with
    | none => rw [hg] at h; cases h
    | some r =>
      cases r with
      | none => rw [hg] at h; cases h
      | some pos => rfl
  refine ⟨h1, ?_⟩
  intro t1 h2
  rw [h1] at h2
  cases h2
  exact ⟨rfl, rfl, fun _ => rfl⟩

/-- C8 at a concrete table: key 1 is present in `dupTable`, and `insert(1, 9)`
returns false and changes nothing. -/
theorem C8_insert_of_present_key_fails_without_change_witness :
    get dupTable 1 = some (some 7) ∧
    (insert dupTable 1 9 = some (false, dupTable) ∧
      ∀ t1, insert dupTable 1 9 = some (false, t1) →
        t1.tableSize = dupTable.tableSize ∧ t1.numElements = dupTable.numElements ∧
        ∀ k1, get t1 k1 = get dupTable k1) :=
  ⟨by decide, C8_insert_of_present_key_fails_without_change dupTable 1 9 7 (by decide)⟩

/-! ## Lemmas on the internal table -/

namespace HashTable

variable {V : Type} [Inhabited V]

theorem getD_set_eq {α : Type} (l : List α) (q p : Nat) (x d : α) :
    (l.set q x).getD p d = if p = q ∧ q < l.length then x else l.getD p d := by
  simp only [List.getD_eq_getElem?_getD, List.getElem?_set]
  by_cases h : q = p
  · subst h
    by_cases h2 : q < l.length
    · simp [h2]
    · simp [h2, List.getElem?_eq_none (not_lt.mp h2)]
  · have : ¬ p = q := fun e => h e.symm
    simp [h, this]

theorem slot_set (l : List (Pair V)) (m n q p : Nat) (x : Pair V) :
    (⟨l.set q x, m, n⟩ : HashTable V).slot p =
      if p = q ∧ q < l.length then x else (⟨l, m, n⟩ : HashTable V).slot p := by
  unfold slot
  exact getD_set_eq l q p x Pair.init

theorem slot_num (l : List (Pair V)) (m n n1 p : Nat) :
    (⟨l, m, n⟩ : HashTable V).slot p = (⟨l, m, n1⟩ : HashTable V).slot p := rfl

/-- The loop of `get` cannot tell two tables apart whose buckets answer its
two tests alike. -/
theorem getLoop_congr (t t1 : HashTable V) (k : Nat) (hsz : t1.table_size = t.table_size)
    (h : ∀ p, ((t1.slot p).stat = Status.Empty ↔ (t.slot p).stat = Status.Empty) ∧
      (((t1.slot p).key = k ∧ (t1.slot p).stat ≠ Status.Deleted) ↔
        ((t.slot p).key = k ∧ (t.slot p).stat ≠ Status.Deleted))) (fuel : Nat) :
    ∀ i pos, getLoop t1 k fuel i pos = getLoop t k fuel i pos := by
  induction fuel with
  | zero => intro i pos; rfl
  | succ fuel ih =>
    intro i pos
    rw [getLoop, getLoop, hsz, ih]
    obtain ⟨h1, h2⟩ := h pos
    by_cases e : (t.slot pos).stat = Status.Empty
    · have e1 := h1.2 e
      simp [e, e1]
    · have e1 : ¬ (t1.slot pos).stat = Status.Empty := fun x => e (h1.1 x)
      by_cases f : (t.slot pos).key = k ∧ (t.slot pos).stat ≠ Status.Deleted
      · have f1 := h2.2 f
        simp only [ne_eq, e, e1, not_false_eq_true, if_true]
        rw [if_pos f, if_pos f1]
      · have f1 : ¬ ((t1.slot pos).key = k ∧ (t1.slot pos).stat ≠ Status.Deleted) :=
          fun x => f (h2.1 x)
        simp only [ne_eq, e, e1, not_false_eq_true, if_true]
        rw [if_neg f, if_neg f1]

theorem getLoop_found (t : HashTable V) (k fuel : Nat) (hm : 0 < t.table_size) :
    ∀ i pos p, pos < t.table_size → getLoop t k fuel i pos = some (some p) →
      (t.slot p).key = k ∧ (t.slot p).stat = Status.Occupied ∧ p < t.table_size := by
  induction fuel with
  | zero => intro i pos p _ h; cases h
  | succ fuel ih =>
    intro i pos p hpos h
    rw [getLoop] at h
    by_cases e : (t.slot pos).stat = Status.Empty
    · simp [e] at h
    · by_cases f : (t.slot pos).key = k ∧ (t.slot pos).stat ≠ Status.Deleted
      · rw [if_pos e, if_pos f] at h
        cases h
        refine ⟨f.1, ?_, hpos⟩
        cases hs : (t.slot pos).stat with
        | Empty => exact absurd hs e
        | Deleted => exact absurd hs f.2
        | Occupied => rfl
      · rw [if_pos e, if_neg f] at h
        exact ih _ _ p (quadraticProb_lt _ _ _ hm) h

/-- A key that `get` finds is still found at the same bucket after one bucket
that was not `Occupied` has been overwritten with another key. -/
theorem getLoop_frame (t t1 : HashTable V) (k q : Nat) (hsz : t1.table_size = t.table_size)
    (hother : ∀ p, p ≠ q → t1.slot p = t.slot p)
    (hold : (t.slot q).stat ≠ Status.Occupied)
    (hnew : (t1.slot q).stat ≠ Status.Empty ∧ (t1.slot q).key ≠ k) (fuel : Nat) :
    ∀ i pos p, getLoop t k fuel i pos = some (some p) →
      getLoop t1 k fuel i pos = some (some p) := by
  induction fuel with
  | zero => intro i pos p h; cases h
  | succ fuel ih =>
    intro i pos p h
    rw [getLoop] at h
    rw [getLoop, hsz]
    by_cases hq : pos = q
    · subst hq
      by_cases e : (t.slot pos).stat = Status.Empty
      · simp [e] at h
      · have f : ¬ ((t.slot pos).key = k ∧ (t.slot pos).stat ≠ Status.Deleted) := by
          rintro ⟨_, f2⟩
          cases hs : (t.slot pos).stat with
          | Empty => exact e hs
          | Deleted => exact f2 hs
          | Occupied => exact hold hs
        rw [if_pos e, if_neg f] at h
        have f1 : ¬ ((t1.slot pos).key = k ∧ (t1.slot pos).stat ≠ Status.Deleted) :=
          fun x => hnew.2 x.1
        rw [if_pos hnew.1, if_neg f1]
        exact ih _ _ p h
    · rw [hother pos hq]
      by_cases e : (t.slot pos).stat = Status.Empty
      · simp [e] at h
      · by_cases f : (t.slot pos).key = k ∧ (t.slot pos).stat ≠ Status.Deleted
        · rw [if_pos e, if_pos f] at h
          rw [if_pos e, if_pos f]
          exact h
        · rw [if_pos e, if_neg f] at h
          rw [if_pos e, if_neg f]
          exact ih _ _ p h

/-- When `get` finds the key, the loop of `remove` stops at a bucket that
holds the key and is not `Empty`. -/
theorem removeLoop_of_found (t : HashTable V) (k fuel : Nat) (hm : 0 < t.table_size) :
    ∀ i pos p, pos < t.table_size → getLoop t k fuel i pos = some (some p) →
      ∃ q, removeLoop t k fuel i pos = some q ∧ (t.slot q).key = k ∧
        (t.slot q).stat ≠ Status.Empty ∧ q < t.table_size := by
  induction fuel with
  | zero => intro i pos p _ h; cases h
  | succ fuel ih =>
    intro i pos p hpos h
    rw [getLoop] at h
    rw [removeLoop]
    by_cases e : (t.slot pos).stat = Status.Empty
    · simp [e] at h
    · by_cases hk : (t.slot pos).key = k
      · refine ⟨pos, ?_, hk, e, hpos⟩
        simp [hk]
      · have f : ¬ ((t.slot pos).key = k ∧ (t.slot pos).stat ≠ Status.Deleted) :=
          fun x => hk x.1
        rw [if_pos e, if_neg f] at h
        rw [if_pos hk]
        exact ih _ _ p (quadraticProb_lt _ _ _ hm) h

theorem update_spec (t : HashTable V) (k : Nat) (v : V) (r : Bool × HashTable V)
    (h : update t k v = some r) :
    r.2.table_size = t.table_size ∧ r.2.hash_table.length = t.hash_table.length ∧
      ∀ k1, getPos r.2 k1 = getPos t k1 := by
  unfold update at h
  cases hg : getPos t k with
  | none => rw [hg] at h; cases h
  | some x =>
    cases x with
    | none =>
      rw [hg] at h
      cases h
      exact ⟨rfl, rfl, fun _ => rfl⟩
    | some pos =>
      rw [hg] at h
      cases h
      refine ⟨rfl, by simp, ?_⟩
      intro k1
      unfold getPos tableSize
      refine getLoop_congr t _ k1 ?_ ?_ _ _ _
      · rfl
      intro p
      obtain ⟨l, m, n⟩ := t
      simp only [slot_set]
      by_cases hp : p = pos ∧ pos < l.length
      · rw [if_pos hp, hp.1]
        simp
      · rw [if_neg hp]
        simp

theorem update_isSome (t : HashTable V) (k : Nat) (v : V) (h : getPos t k ≠ none) :
    ∃ r, update t k v = some r := by
  unfold update
  cases hg : getPos t k with
  | none => exact absurd hg h
  | some x =>
    cases x with
    | none => exact ⟨_, rfl⟩
    | some pos => exact ⟨_, rfl⟩

/-- Removing a key that `get` finds returns true and leaves the result of
`get` for every other key as it was. -/
theorem remove_spec (t : HashTable V) (k : Nat) (hok : TableOk t) (hf : Found t k) :
    ∃ t1, remove t k = some (true, t1) ∧ TableOk t1 ∧
      ∀ k1, k1 ≠ k → getPos t1 k1 = getPos t k1 := by
  obtain ⟨p, hp⟩ := hf
  obtain ⟨hm, hlen⟩ := hok
  have hstart : k % t.table_size < t.table_size := Nat.mod_lt _ hm
  obtain ⟨q, hq1, hq2, hq3, hq4⟩ :=
    removeLoop_of_found t k probeFuel hm 1 (k % t.table_size) p hstart hp
  unfold remove
  rw [hp]
  simp only
  unfold tableSize
  rw [hq1]
  refine ⟨_, rfl, ⟨hm, by simpa using hlen⟩, ?_⟩
  intro k1 hk1
  unfold getPos tableSize
  refine getLoop_congr t _ k1 ?_ ?_ _ _ _
  · rfl
  intro x
  obtain ⟨l, m, n⟩ := t
  simp only [slot_set]
  by_cases hx : x = q ∧ q < l.length
  · rw [if_pos hx, hx.1]
    have hq2 : (slot ⟨l, m, n⟩ q).key = k := hq2
    have hq3 : (slot ⟨l, m, n⟩ q).stat ≠ Status.Empty := hq3
    constructor
    · simp [hq3]
    · simp only [hq2]
      constructor
      · intro hh; exact absurd hh.1.symm hk1
      · intro hh; exact absurd hh.1.symm hk1
  · rw [if_neg hx]
    simp [slot]

end HashTable

namespace HashTable

variable {V : Type} [Inhabited V]

theorem insertLoop_spec (t : HashTable V) (k fuel : Nat) (hm : 0 < t.table_size) :
    ∀ i pos q, pos < t.table_size → insertLoop t k fuel i pos = some q →
      q < t.table_size ∧ (t.slot q).stat ≠ Status.Occupied := by
  induction fuel with
  | zero => intro i pos q _ h; cases h
  | succ fuel ih =>
    intro i pos q hpos h
    rw [insertLoop] at h
    by_cases e : (t.slot pos).stat = Status.Occupied
    · rw [if_pos e] at h
      exact ih _ _ q (quadraticProb_lt _ _ _ hm) h
    · rw [if_neg e] at h
      cases h
      exact ⟨hpos, e⟩

/-- After the pair has been stored in the bucket chosen by the loop of
`insert`, `get` finds the key in that bucket. -/
theorem getLoop_after_store (l : List (Pair V)) (m n n1 k q : Nat) (v : V) (hm : 0 < m)
    (hlen : l.length = m) (fuel : Nat) :
    ∀ i pos, pos < m →
      getLoop (⟨l, m, n⟩ : HashTable V) k fuel i pos = some none →
      insertLoop (⟨l, m, n⟩ : HashTable V) k fuel i pos = some q →
      getLoop (⟨l.set q ⟨k, v, Status.Occupied⟩, m, n1⟩ : HashTable V) k fuel i pos =
        some (some q) := by
  induction fuel with
  | zero => intro i pos _ h; cases h
  | succ fuel ih =>
    intro i pos hpos hg hi
    have hq := insertLoop_spec (⟨l, m, n⟩ : HashTable V) k (fuel + 1) hm i pos q hpos hi
    rw [getLoop] at hg
    rw [insertLoop] at hi
    rw [getLoop]
    simp only [slot_set]
    by_cases e : (slot (⟨l, m, n⟩ : HashTable V) pos).stat = Status.Occupied
    · rw [if_pos e] at hi
      have hne : ¬ (slot (⟨l, m, n⟩ : HashTable V) pos).stat = Status.Empty := by
        rw [e]; intro x; cases x
      have hpq : ¬ (pos = q ∧ q < l.length) := by
        rintro ⟨x, _⟩
        rw [x] at e
        exact hq.2 e
      rw [if_neg hpq]
      have hs : slot (⟨l, m, n1⟩ : HashTable V) pos = slot (⟨l, m, n⟩ : HashTable V) pos := rfl
      rw [hs]
      by_cases f : (slot (⟨l, m, n⟩ : HashTable V) pos).key = k ∧
          (slot (⟨l, m, n⟩ : HashTable V) pos).stat ≠ Status.Deleted
      · rw [if_pos hne, if_pos f] at hg
        cases hg
      · rw [if_pos hne, if_neg f] at hg
        rw [if_pos hne, if_neg f]
        exact ih _ _ (quadraticProb_lt _ _ _ hm) hg hi
    · rw [if_neg e] at hi
      have hpq : pos = q := by simpa using hi
      subst hpq
      have hlt : pos < l.length := by rw [hlen]; exact hpos
      simp [hlt]

theorem primeLoop_ge (fuel : Nat) : ∀ s r, primeLoop fuel s = some r → s ≤ r := by
  induction fuel with
  | zero => intro s r h; cases h
  | succ fuel ih =>
    intro s r h
    rw [primeLoop] at h
    by_cases e : isPrime s = true
    · simp [e] at h
      omega
    · simp [e] at h
      have := ih _ _ h
      omega

theorem found_of_getPos (t : HashTable V) (k p : Nat) (h : getPos t k = some (some p)) :
    Found t k := ⟨p, h⟩

/-- A completed `insert` leaves a well-formed table in which the key is found
and every key found before is still found. -/
theorem insertAux_spec (depth : Nat) :
    ∀ (t : HashTable V) (k : Nat) (v : V) (r : Bool × HashTable V), TableOk t →
      insertAux depth t k v = some r →
      TableOk r.2 ∧ Found r.2 k ∧ ∀ k1, Found t k1 → Found r.2 k1 := by
  induction depth with
  | zero => intro t k v r _ h; cases h
  | succ depth ih =>
    intro t k v r hok h
    obtain ⟨hm, hlen⟩ := hok
    rw [insertAux] at h
    cases hg : getPos t k with
    | none => rw [hg] at h; cases h
    | some x =>
      cases x with
      | some p =>
        rw [hg] at h
        cases h
        exact ⟨⟨hm, hlen⟩, ⟨p, hg⟩, fun _ hk => hk⟩
      | none =>
        rw [hg] at h
        simp only at h
        by_cases hload : 2 * (t.num_element + 1) > t.table_size
        · rw [if_pos hload] at h
          cases hp : primeLoop (t.table_size * 2 + 2) (t.table_size * 2 + 1) with
          | none => rw [hp] at h; cases h
          | some new_size =>
            rw [hp] at h
            simp only at h
            have hnew : 0 < new_size := by
              have := primeLoop_ge _ _ _ hp
              omega
            -- the copy loop
            have hfold : ∀ (is : List Nat) (acc0 acc : HashTable V), TableOk acc0 →
                is.foldlM (fun (acc : HashTable V) (i : Nat) =>
                  if (t.slot i).stat = Status.Occupied then
                    (insertAux depth acc (t.slot i).key (t.slot i).value).map Prod.snd
                  else some acc) acc0 = some acc →
                TableOk acc ∧ (∀ k1, Found acc0 k1 → Found acc k1) ∧
                  ∀ i, i ∈ is → (t.slot i).stat = Status.Occupied →
                    Found acc (t.slot i).key := by
              intro is
              induction is with
              | nil =>
                intro acc0 acc hok0 hf
                simp only [List.foldlM, pure] at hf
                cases hf
                exact ⟨hok0, fun _ hk => hk, fun i hi => by cases hi⟩
              | cons j rest ihl =>
                intro acc0 acc hok0 hf
                rw [List.foldlM_cons] at hf
                by_cases ho : (t.slot j).stat = Status.Occupied
                · rw [if_pos ho] at hf
                  cases hins : insertAux depth acc0 (t.slot j).key (t.slot j).value with
                  | none => rw [hins] at hf; cases hf
                  | some r1 =>
                    rw [hins] at hf
                    simp only [Option.map_some', Option.some_bind, bind] at hf
                    obtain ⟨hok1, hfk, hpres⟩ := ih acc0 _ _ r1 hok0 hins
                    obtain ⟨hok2, hpres2, hall⟩ := ihl r1.2 acc hok1 hf
                    refine ⟨hok2, fun k1 hk1 => hpres2 k1 (hpres k1 hk1), ?_⟩
                    intro i hi hoi
                    rcases List.mem_cons.1 hi with e | e
                    · rw [e]
                      exact hpres2 _ hfk
                    · exact hall i e hoi
                · rw [if_neg ho] at hf
                  simp only [Option.some_bind, bind] at hf
                  obtain ⟨hok2, hpres2, hall⟩ := ihl acc0 acc hok0 hf
                  refine ⟨hok2, hpres2, ?_⟩
                  intro i hi hoi
                  rcases List.mem_cons.1 hi with e | e
                  · rw [e] at hoi
                    exact absurd hoi ho
                  · exact hall i e hoi
            cases hmv : (List.range t.table_size).foldlM (fun (acc : HashTable V) (i : Nat) =>
                  if (t.slot i).stat = Status.Occupied then
                    (insertAux depth acc (t.slot i).key (t.slot i).value).map Prod.snd
                  else some acc)
                (⟨List.replicate new_size Pair.init, new_size, 0⟩ : HashTable V) with
            | none => rw [hmv] at h; cases h
            | some acc =>
              rw [hmv] at h
              simp only at h
              have hok0 : TableOk (⟨List.replicate new_size Pair.init, new_size, 0⟩ :
                  HashTable V) := ⟨hnew, by simp⟩
              obtain ⟨hok1, _, hall⟩ := hfold _ _ _ hok0 hmv
              cases hfin : insertAux depth acc k v with
              | none => rw [hfin] at h; cases h
              | some r1 =>
                rw [hfin] at h
                simp only [Option.map_some', Option.some.injEq] at h
                obtain ⟨hok2, hfk, hpres⟩ := ih acc k v r1 hok1 hfin
                rw [← h]
                refine ⟨hok2, hfk, ?_⟩
                intro k1 hk1
                obtain ⟨p, hp1⟩ := hk1
                obtain ⟨hk, ho, hlt⟩ := getLoop_found t k1 probeFuel hm 1
                  (k1 % t.table_size) p (Nat.mod_lt _ hm) hp1
                have := hall p (List.mem_range.2 hlt) ho
                rw [hk] at this
                exact hpres k1 this
        · rw [if_neg hload] at h
          cases hl : insertLoop t k probeFuel 1 (k % t.table_size) with
          | none => rw [hl] at h; cases h
          | some q =>
            rw [hl] at h
            simp only [Option.some.injEq] at h
            rw [← h]
            obtain ⟨l, m, n⟩ := t
            have hstart : k % m < m := Nat.mod_lt _ hm
            obtain ⟨hq1, hq2⟩ := insertLoop_spec _ k probeFuel hm 1 (k % m) q hstart hl
            refine ⟨⟨hm, by simpa using hlen⟩, ⟨q, ?_⟩, ?_⟩
            · exact getLoop_after_store l m n (n + 1) k q v hm hlen probeFuel 1 (k % m) hstart hg hl
            · intro k1 hk1
              obtain ⟨p, hp1⟩ := hk1
              refine ⟨p, ?_⟩
              have hkk : k ≠ k1 := by
                intro e
                rw [e] at hg
                rw [hg] at hp1
                cases hp1
              refine getLoop_frame (⟨l, m, n⟩ : HashTable V) _ k1 q ?_ ?_ hq2 ?_ probeFuel 1 (k1 % m) p
                hp1
              · rfl
              · intro x hx
                simp only [slot_set]
                rw [if_neg (fun c => hx c.1)]
                rfl
              · have hlt : q < l.length := by
                  have : l.length = m := hlen
                  rw [this]; exact hq1
                simpa [slot_set, hlt] using hkk

end HashTable

/-! ## Lemmas on `percolate` -/

namespace PriorityQueue

variable {V : Type} [Inhabited V]

theorem heap_swap (pq : PriorityQueue V) (a b i : Nat) (ha : a < pq.binary_heap.length)
    (hb : b < pq.binary_heap.length) :
    (pq.swap a b).heap i = swapFn pq.heap a b i := by
  unfold swap heap swapFn
  simp only
  rw [HashTable.getD_set_eq, HashTable.getD_set_eq, List.length_set]
  by_cases h1 : i = b
  · simp [h1, hb]
  · by_cases h2 : i = a
    · have h3 : ¬ a = b := fun e => h1 (h2.trans e)
      simp [h2, h3, ha]
    · simp [h1, h2]

theorem htUpdate_spec (pq pq1 : PriorityQueue V) (k x : Nat) (h : pq.htUpdate k x = some pq1) :
    pq1.binary_heap = pq.binary_heap ∧ pq1.num_element = pq.num_element ∧
      pq1.max_size = pq.max_size ∧ SameTable pq pq1 := by
  unfold htUpdate at h
  cases hu : HashTable.update pq.ht k x with
  | none => rw [hu] at h; cases h
  | some r =>
    rw [hu] at h
    simp only [Option.map_some', Option.some.injEq] at h
    rw [← h]
    exact ⟨rfl, rfl, rfl, HashTable.update_spec pq.ht k x r hu⟩

theorem swapUpdate_spec (pq pq1 : PriorityQueue V) (a b : Nat)
    (h : pq.swapUpdate a b = some pq1) :
    pq1.binary_heap = (pq.swap a b).binary_heap ∧ pq1.num_element = pq.num_element ∧
      pq1.max_size = pq.max_size ∧ SameTable pq pq1 := by
  unfold swapUpdate at h
  cases h1 : (pq.swap a b).htUpdate ((pq.swap a b).heap a).key a with
  | none => rw [h1] at h; cases h
  | some pq2 =>
    rw [h1] at h
    simp only [Option.some_bind] at h
    obtain ⟨e1, e2, e3, e4, e5, e6⟩ := htUpdate_spec _ _ _ _ h1
    obtain ⟨f1, f2, f3, f4, f5, f6⟩ := htUpdate_spec _ _ _ _ h
    refine ⟨by rw [f1, e1], by rw [f2, e2]; rfl, by rw [f3, e3]; rfl, ?_, ?_, ?_⟩
    · rw [f4, e4]; rfl
    · rw [f5, e5]; rfl
    · intro k; rw [f6, e6]; rfl

theorem swapUpdate_isSome (pq : PriorityQueue V) (a b : Nat)
    (ha : HashTable.getPos pq.ht ((pq.swap a b).heap a).key ≠ none)
    (hb : HashTable.getPos pq.ht ((pq.swap a b).heap b).key ≠ none) :
    ∃ pq1, pq.swapUpdate a b = some pq1 := by
  unfold swapUpdate
  obtain ⟨r, hr⟩ := HashTable.update_isSome (pq.swap a b).ht ((pq.swap a b).heap a).key a ha
  have h1 : (pq.swap a b).htUpdate ((pq.swap a b).heap a).key a =
      some { pq.swap a b with ht := r.2 } := by
    unfold htUpdate
    rw [hr]
    rfl
  rw [h1]
  simp only [Option.some_bind]
  obtain ⟨_, _, _, _, _, e6⟩ := htUpdate_spec _ _ _ _ h1
  have hb1 : HashTable.getPos r.2 ((pq.swap a b).heap b).key ≠ none := by
    have := e6 ((pq.swap a b).heap b).key
    simp only at this
    rw [this]
    exact hb
  obtain ⟨r1, hr1⟩ := HashTable.update_isSome r.2 ((pq.swap a b).heap b).key b hb1
  refine ⟨{ pq.swap a b with ht := r1.2 }, ?_⟩
  unfold htUpdate
  simp only
  have : ({ pq.swap a b with ht := r.2 } : PriorityQueue V).heap b = (pq.swap a b).heap b := rfl
  rw [this, hr1]
  rfl

end PriorityQueue

namespace PriorityQueue

variable {V : Type} [Inhabited V]

theorem keyAt_swapFn (pq : PriorityQueue V) (a b i : Nat) :
    (swapFn pq.heap a b i).key = swapFn pq.keyAt a b i := by
  unfold swapFn keyAt
  by_cases h1 : i = b
  · simp [h1]
  · by_cases h2 : i = a
    · have h3 : ¬ a = b := fun e => h1 (h2.trans e)
      simp [h2, h3]
    · simp [h1, h2]

/-- The effect of one move of `percolate` on the heap array and the table. -/
theorem swapStep (pq pq1 : PriorityQueue V) (a b : Nat) (hwf : HeapWf pq)
    (ha1 : 1 ≤ a) (ha : a ≤ pq.num_element) (hb1 : 1 ≤ b) (hb : b ≤ pq.num_element)
    (h : pq.swapUpdate a b = some pq1) :
    HeapWf pq1 ∧ SameLive pq pq1 ∧ SameTable pq pq1 ∧
      (∀ i, pq1.heap i = swapFn pq.heap a b i) ∧ pq1.keyAt = swapFn pq.keyAt a b := by
  obtain ⟨hlen, hmax, h0, hinj⟩ := hwf
  obtain ⟨e1, e2, e3, e4⟩ := swapUpdate_spec pq pq1 a b h
  have hla : a < pq.binary_heap.length := by omega
  have hlb : b < pq.binary_heap.length := by omega
  have hheap : ∀ i, pq1.heap i = swapFn pq.heap a b i := by
    intro i
    rw [← heap_swap pq a b i hla hlb]
    unfold heap
    rw [e1]
  have hkey : pq1.keyAt = swapFn pq.keyAt a b := by
    funext i
    show (pq1.heap i).key = _
    rw [hheap, keyAt_swapFn]
  refine ⟨⟨?_, ?_, ?_, ?_⟩, ⟨e2, e3, ?_⟩, e4, hheap, hkey⟩
  · rw [e1, e3]
    unfold swap
    simp only [List.length_set]
    exact hlen
  · rw [e2, e3]; exact hmax
  · rw [hkey, swapFn_other _ _ _ _ (by omega) (by omega)]
    exact h0
  · intro i j hi1 hi hj1 hj hij
    rw [e2] at hi hj
    rw [hkey] at hij
    by_cases hib : i = b
    · by_cases hjb : j = b
      · rw [hib, hjb]
      · rw [hib, swapFn_right] at hij
        by_cases hja : j = a
        · rw [hja, swapFn_left] at hij
          have := hinj a b ha1 ha hb1 hb hij
          rw [hib, hja, this]
        · rw [swapFn_other _ _ _ _ hja hjb] at hij
          exact absurd (hinj a j ha1 ha hj1 hj hij).symm hja
    · by_cases hia : i = a
      · rw [hia, swapFn_left] at hij
        by_cases hjb : j = b
        · rw [hjb, swapFn_right] at hij
          have := hinj b a hb1 hb ha1 ha hij
          rw [hia, hjb, this]
        · by_cases hja : j = a
          · rw [hia, hja]
          · rw [swapFn_other _ _ _ _ hja hjb] at hij
            exact absurd (hinj b j hb1 hb hj1 hj hij).symm hjb
      · rw [swapFn_other _ _ _ _ hia hib] at hij
        by_cases hjb : j = b
        · rw [hjb, swapFn_right] at hij
          exact absurd (hinj i a hi1 hi ha1 ha hij) hia
        · by_cases hja : j = a
          · rw [hja, swapFn_left] at hij
            exact absurd (hinj i b hi1 hi hb1 hb hij) hib
          · rw [swapFn_other _ _ _ _ hja hjb] at hij
            exact hinj i j hi1 hi hj1 hj hij
  · intro e
    rw [e2]
    constructor
    · rintro ⟨i, hi1, hi, hie⟩
      rw [hheap] at hie
      by_cases hib : i = b
      · rw [hib, swapFn_right] at hie
        exact ⟨a, ha1, ha, hie⟩
      · by_cases hia : i = a
        · rw [hia, swapFn_left] at hie
          exact ⟨b, hb1, hb, hie⟩
        · rw [swapFn_other _ _ _ _ hia hib] at hie
          exact ⟨i, hi1, hi, hie⟩
    · rintro ⟨i, hi1, hi, hie⟩
      by_cases hib : i = b
      · refine ⟨a, ha1, ha, ?_⟩
        rw [hheap, swapFn_left, ← hib]
        exact hie
      · by_cases hia : i = a
        · refine ⟨b, hb1, hb, ?_⟩
          rw [hheap, swapFn_right, ← hia]
          exact hie
        · refine ⟨i, hi1, hi, ?_⟩
          rw [hheap, swapFn_other _ _ _ _ hia hib]
          exact hie

/-- One iteration of the loop of `percolate`: it leaves the loop, or it makes
a move `StepTo` and goes on at the new position. -/
theorem percolate_step (pq : PriorityQueue V) (kp : Nat) (hwf : HeapWf pq) (h1 : 1 ≤ kp)
    (hn : kp ≤ pq.num_element) :
    (¬ percolateCond pq kp ∧ ∀ fuel, percolateLoop (fuel + 1) pq kp = some (pq, kp)) ∨
    (∃ c, StepTo pq kp c ∧ 1 ≤ c ∧ c ≤ pq.num_element ∧
      ∀ fuel, percolateLoop (fuel + 1) pq kp =
        (pq.swapUpdate kp c).bind fun pq1 => percolateLoop fuel pq1 c) := by
  obtain ⟨_, _, h0, hinj⟩ := hwf
  by_cases hc : percolateCond pq kp
  · right
    by_cases up : (pq.heap kp).key < (pq.heap (kp / 2)).key
    · have h2 : 2 ≤ kp := by
        by_contra hlt
        have e : kp = 1 := by omega
        rw [e] at up
        have h0 : (pq.heap 0).key = 0 := h0
        simp only [Nat.reduceDiv] at up
        rw [h0] at up
        exact Nat.not_lt_zero _ up
      refine ⟨kp / 2, Or.inl ⟨h2, rfl, up⟩, by omega, by omega, ?_⟩
      intro fuel
      rw [percolateLoop, if_pos hc, if_pos up]
    · have hdown : (kp * 2 ≤ pq.num_element ∧ (pq.heap kp).key > (pq.heap (kp * 2)).key) ∨
          (kp * 2 + 1 ≤ pq.num_element ∧
            (pq.heap kp).key > (pq.heap (kp * 2 + 1)).key) := by
        rcases hc with hc | hc
        · exact absurd hc.2 up
        · exact hc
      by_cases both : kp * 2 ≤ pq.num_element ∧ kp * 2 + 1 ≤ pq.num_element ∧
          (pq.heap kp).key > (pq.heap (kp * 2)).key ∧
          (pq.heap kp).key > (pq.heap (kp * 2 + 1)).key
      · obtain ⟨b1, b2, b3, b4⟩ := both
        have hne : (pq.heap (kp * 2)).key ≠ (pq.heap (kp * 2 + 1)).key := by
          intro e
          have := hinj (kp * 2) (kp * 2 + 1) (by omega) b1 (by omega) b2 e
          omega
        by_cases hlt : (pq.heap (kp * 2)).key < (pq.heap (kp * 2 + 1)).key
        · refine ⟨kp * 2, Or.inr ⟨up, by omega, b1, b3, ?_⟩, by omega, b1, ?_⟩
          · intro s hs hsk
            rcases Nat.mod_two_eq_zero_or_one s with hm | hm
            · have : s = kp * 2 := by omega
              rw [this]
            · have : s = kp * 2 + 1 := by omega
              rw [this]
              exact Nat.le_of_lt hlt
          · intro fuel
            rw [percolateLoop, if_pos hc, if_neg up, if_pos ⟨b1, b2, b3, b4⟩, if_pos hlt]
        · have hgt : (pq.heap (kp * 2)).key > (pq.heap (kp * 2 + 1)).key := by omega
          refine ⟨kp * 2 + 1, Or.inr ⟨up, by omega, b2, b4, ?_⟩, by omega, b2, ?_⟩
          · intro s hs hsk
            rcases Nat.mod_two_eq_zero_or_one s with hm | hm
            · have : s = kp * 2 := by omega
              rw [this]
              exact Nat.le_of_lt hgt
            · have : s = kp * 2 + 1 := by omega
              rw [this]
          · intro fuel
            rw [percolateLoop, if_pos hc, if_neg up, if_pos ⟨b1, b2, b3, b4⟩, if_neg hlt,
              if_pos hgt]
      · by_cases left : (pq.heap kp).key > (pq.heap (kp * 2)).key
        · have b1 : kp * 2 ≤ pq.num_element := by
            rcases hdown with hd | hd
            · exact hd.1
            · omega
          refine ⟨kp * 2, Or.inr ⟨up, by omega, b1, left, ?_⟩, by omega, b1, ?_⟩
          · intro s hs hsk
            rcases Nat.mod_two_eq_zero_or_one s with hm | hm
            · have : s = kp * 2 := by omega
              rw [this]
            · have e : s = kp * 2 + 1 := by omega
              rw [e]
              rw [e] at hs
              by_contra hlt
              exact both ⟨b1, hs, left, by
                show (pq.heap kp).key > (pq.heap (kp * 2 + 1)).key
                have hlt : ¬ (pq.heap (kp * 2)).key ≤ (pq.heap (kp * 2 + 1)).key := hlt
                omega⟩
          · intro fuel
            rw [percolateLoop, if_pos hc, if_neg up, if_neg both, if_pos left]
        · have hr : kp * 2 + 1 ≤ pq.num_element ∧
              (pq.heap kp).key > (pq.heap (kp * 2 + 1)).key := by
            rcases hdown with hd | hd
            · exact absurd hd.2 left
            · exact hd
          refine ⟨kp * 2 + 1, Or.inr ⟨up, by omega, hr.1, hr.2, ?_⟩, by omega, hr.1, ?_⟩
          · intro s hs hsk
            rcases Nat.mod_two_eq_zero_or_one s with hm | hm
            · have e : s = kp * 2 := by omega
              rw [e]
              show (pq.heap (kp * 2 + 1)).key ≤ (pq.heap (kp * 2)).key
              have := hr.2
              omega
            · have : s = kp * 2 + 1 := by omega
              rw [this]
          · intro fuel
            rw [percolateLoop, if_pos hc, if_neg up, if_neg both, if_neg left, if_pos hr.2]
  · left
    refine ⟨hc, ?_⟩
    intro fuel
    rw [percolateLoop, if_neg hc]

end PriorityQueue

namespace PriorityQueue

variable {V : Type} [Inhabited V]

theorem sameLive_trans {a b c : PriorityQueue V} (h1 : SameLive a b) (h2 : SameLive b c) :
    SameLive a c :=
  ⟨h2.1.trans h1.1, h2.2.1.trans h1.2.1, fun e => (h2.2.2 e).trans (h1.2.2 e)⟩

theorem sameTable_trans {a b c : PriorityQueue V} (h1 : SameTable a b) (h2 : SameTable b c) :
    SameTable a c :=
  ⟨h2.1.trans h1.1, h2.2.1.trans h1.2.1, fun k => (h2.2.2 k).trans (h1.2.2 k)⟩

theorem sameLive_refl (a : PriorityQueue V) : SameLive a a := ⟨rfl, rfl, fun _ => Iff.rfl⟩

theorem sameTable_refl (a : PriorityQueue V) : SameTable a a := ⟨rfl, rfl, fun _ => rfl⟩

/-- When `percolate` returns, started at a position where the heap order may
be broken, the live keys are in heap order; the live entries are the same
and the internal table answers every `get` as before. -/
theorem percolateLoop_spec (fuel : Nat) :
    ∀ (pq : PriorityQueue V) (kp : Nat) (res : PriorityQueue V × Nat), HeapWf pq →
      1 ≤ kp → kp ≤ pq.num_element → AlmostHeap pq.keyAt pq.num_element kp →
      percolateLoop fuel pq kp = some res →
      HeapWf res.1 ∧ SameLive pq res.1 ∧ SameTable pq res.1 ∧
        IsHeap res.1.keyAt res.1.num_element := by
  induction fuel with
  | zero => intro pq kp res _ _ _ _ h; cases h
  | succ fuel ih =>
    intro pq kp res hwf h1 hn hA h
    rcases percolate_step pq kp hwf h1 hn with ⟨hc, hex⟩ | ⟨c, hstep, hc1, hcn, hgo⟩
    · rw [hex fuel] at h
      cases h
      refine ⟨hwf, sameLive_refl _, sameTable_refl _, ?_⟩
      unfold percolateCond at hc
      exact almostHeap_exit pq.keyAt pq.num_element kp hA
        (fun x => hc (Or.inl x)) (fun x => hc (Or.inr (Or.inl x)))
        (fun x => hc (Or.inr (Or.inr x)))
    · rw [hgo fuel] at h
      cases hs : pq.swapUpdate kp c with
      | none => rw [hs] at h; cases h
      | some pq1 =>
        rw [hs] at h
        simp only [Option.some_bind] at h
        obtain ⟨hwf1, hl1, ht1, _, hk1⟩ := swapStep pq pq1 kp c hwf h1 hn hc1 hcn hs
        have hA1 : AlmostHeap pq1.keyAt pq1.num_element c := by
          rw [hk1, hl1.1]
          rcases hstep with ⟨h2, hc2, _⟩ | ⟨_, hc2, _, _, hsib⟩
          · rw [hc2]
            exact almostHeap_up pq.keyAt pq.num_element kp hA h2 hn
          · exact almostHeap_down pq.keyAt pq.num_element kp c hA h1 hcn hc2 hsib
        have hcn1 : c ≤ pq1.num_element := by rw [hl1.1]; exact hcn
        obtain ⟨r1, r2, r3, r4⟩ := ih pq1 c res hwf1 hc1 hcn1 hA1 h
        exact ⟨r1, sameLive_trans hl1 r2, sameTable_trans ht1 r3, r4⟩

/-- The loop of `percolate` leaves after at most `num_element - kp` moves
when the key at `kp` is not below its parent and the internal table answers
`get` for every live key. -/
theorem percolateLoop_down (fuel : Nat) :
    ∀ (pq : PriorityQueue V) (kp : Nat), HeapWf pq → 1 ≤ kp → kp ≤ pq.num_element →
      (kp = 1 ∨ pq.keyAt (kp / 2) ≤ pq.keyAt kp) →
      (∀ i, 1 ≤ i → i ≤ pq.num_element → HashTable.getPos pq.ht (pq.keyAt i) ≠ none) →
      pq.num_element - kp < fuel →
      ∃ res, percolateLoop fuel pq kp = some res := by
  induction fuel with
  | zero => intro pq kp _ _ _ _ _ h; omega
  | succ fuel ih =>
    intro pq kp hwf h1 hn hpar hget hfuel
    rcases percolate_step pq kp hwf h1 hn with ⟨_, hex⟩ | ⟨c, hstep, hc1, hcn, hgo⟩
    · exact ⟨_, hex fuel⟩
    · rw [hgo fuel]
      rcases hstep with ⟨h2, hc2, hlt⟩ | ⟨_, hc2, _, hlt, _⟩
      · exfalso
        rcases hpar with e | e
        · omega
        · rw [hc2] at hlt
          omega
      · obtain ⟨hlen, hmax, _, _⟩ := hwf
        have hla : kp < pq.binary_heap.length := by omega
        have hlc : c < pq.binary_heap.length := by omega
        have hka : HashTable.getPos pq.ht ((pq.swap kp c).heap kp).key ≠ none := by
          rw [heap_swap pq kp c kp hla hlc, swapFn_left]
          exact hget c hc1 hcn
        have hkc : HashTable.getPos pq.ht ((pq.swap kp c).heap c).key ≠ none := by
          rw [heap_swap pq kp c c hla hlc, swapFn_right]
          exact hget kp h1 hn
        obtain ⟨pq1, hs⟩ := swapUpdate_isSome pq kp c hka hkc
        rw [hs]
        simp only [Option.some_bind]
        obtain ⟨hwf1, hl1, ht1, _, hk1⟩ :=
          swapStep pq pq1 kp c ⟨hlen, hmax, by assumption, by assumption⟩ h1 hn hc1 hcn hs
        have hckp : c ≠ kp := by omega
        apply ih pq1 c hwf1 hc1 (by rw [hl1.1]; exact hcn)
        · right
          rw [hk1, hc2, swapFn_left, swapFn_right]
          exact Nat.le_of_lt hlt
        · intro i hi1 hi
          obtain ⟨j, hj1, hj, hje⟩ := (hl1.2.2 (pq1.heap i)).1 ⟨i, hi1, hi, rfl⟩
          rw [ht1.2.2]
          have : pq1.keyAt i = pq.keyAt j := by
            show (pq1.heap i).key = (pq.heap j).key
            rw [hje]
          rw [this]
          exact hget j hj1 hj
        · rw [hl1.1]
          omega

end PriorityQueue

/-! ## Lemmas on `insert` and `deleteMin` of the queue -/

namespace PriorityQueue

variable {V : Type} [Inhabited V]

theorem heap_set (l : List (KeyValuePair V)) (ht : HashTable Nat) (m n j i : Nat)
    (x : KeyValuePair V) :
    (⟨l.set j x, ht, m, n⟩ : PriorityQueue V).heap i =
      if i = j ∧ j < l.length then x else l.getD i KeyValuePair.init := by
  unfold heap
  exact HashTable.getD_set_eq l j i x KeyValuePair.init

theorem root_le (h : Nat → Nat) (n : Nat) (hh : IsHeap h n) :
    ∀ i, 1 ≤ i → i ≤ n → h 1 ≤ h i := by
  intro i
  induction i using Nat.strong_induction_on with
  | _ i ih =>
    intro h1 hn
    by_cases e : i = 1
    · rw [e]
    · have h2 : 2 ≤ i := by omega
      have := ih (i / 2) (by omega) (by omega) (by omega)
      exact Nat.le_trans this (hh i h2 hn)

theorem mem_withoutMin (l : List (Nat × V)) (e : Nat × V) :
    e ∈ withoutMin l ↔ e ∈ l ∧ ∃ e1, e1 ∈ l ∧ e1.1 < e.1 := by
  unfold withoutMin
  simp [List.mem_filter, List.any_eq_true]

/-- The step of `insert` between the two tests and the call of
`ht.insert`: the pair is stored behind the live entries and percolated. -/
theorem insert_heap (pq : PriorityQueue V) (l : List (Nat × V)) (k : Nat) (v : V)
    (res : PriorityQueue V × Nat) (hinv : Inv pq l) (hk : ∀ e, e ∈ l → e.1 ≠ k)
    (hfull : pq.num_element + 1 ≤ pq.max_size)
    (h : percolate
          { pq with
            binary_heap := pq.binary_heap.set (pq.num_element + 1) ⟨k, v⟩
            num_element := pq.num_element + 1 }
          (pq.num_element + 1) = some res) :
    HeapWf res.1 ∧ IsHeap res.1.keyAt res.1.num_element ∧ Content res.1 (l ++ [(k, v)]) ∧
      res.1.num_element = pq.num_element + 1 ∧ res.1.max_size = pq.max_size ∧
      TableOk res.1.ht ∧
      (∀ k1, HashTable.getPos res.1.ht k1 = HashTable.getPos pq.ht k1) := by
  obtain ⟨⟨hlen, hmax, h0, hinj⟩, hheap, hcont, hok, _⟩ := hinv
  obtain ⟨bh, ht, ms, n⟩ := pq
  simp only at hlen hmax hfull h hheap
  have hlt : n + 1 < bh.length := by omega
  -- the array after the store
  have hnew : ∀ i, (⟨bh.set (n + 1) ⟨k, v⟩, ht, ms, n + 1⟩ : PriorityQueue V).heap i =
      if i = n + 1 then ⟨k, v⟩ else (⟨bh, ht, ms, n⟩ : PriorityQueue V).heap i := by
    intro i
    rw [heap_set]
    by_cases e : i = n + 1
    · simp [e, hlt]
    · simp [e, heap]
  have hnewk : ∀ i, (⟨bh.set (n + 1) ⟨k, v⟩, ht, ms, n + 1⟩ : PriorityQueue V).keyAt i =
      if i = n + 1 then k else (⟨bh, ht, ms, n⟩ : PriorityQueue V).keyAt i := by
    intro i
    show ((⟨bh.set (n + 1) ⟨k, v⟩, ht, ms, n + 1⟩ : PriorityQueue V).heap i).key = _
    rw [hnew]
    by_cases e : i = n + 1
    · simp [e]
    · simp [e, keyAt]
  have hfresh : ∀ i, 1 ≤ i → i ≤ n → (⟨bh, ht, ms, n⟩ : PriorityQueue V).keyAt i ≠ k := by
    intro i hi1 hi
    have := (hcont ((⟨bh, ht, ms, n⟩ : PriorityQueue V).keyAt i,
      ((⟨bh, ht, ms, n⟩ : PriorityQueue V).heap i).value)).2 ⟨i, hi1, hi, rfl⟩
    exact hk _ this
  have hwf1 : HeapWf (⟨bh.set (n + 1) ⟨k, v⟩, ht, ms, n + 1⟩ : PriorityQueue V) := by
    refine ⟨by simpa using hlen, hfull, ?_, ?_⟩
    · rw [hnewk, if_neg (by omega)]
      exact h0
    · intro i j hi1 hi hj1 hj hij
      have hi : i ≤ n + 1 := hi
      have hj : j ≤ n + 1 := hj
      rw [hnewk, hnewk] at hij
      by_cases ei : i = n + 1
      · by_cases ej : j = n + 1
        · rw [ei, ej]
        · rw [if_pos ei, if_neg ej] at hij
          exact absurd hij.symm (hfresh j hj1 (by omega))
      · by_cases ej : j = n + 1
        · rw [if_neg ei, if_pos ej] at hij
          exact absurd hij (hfresh i hi1 (by omega))
        · rw [if_neg ei, if_neg ej] at hij
          exact hinj i j hi1 (by show i ≤ n; omega) hj1 (by show j ≤ n; omega) hij
  have hA : AlmostHeap (⟨bh.set (n + 1) ⟨k, v⟩, ht, ms, n + 1⟩ : PriorityQueue V).keyAt
      (n + 1) (n + 1) := by
    constructor
    · intro i hi2 hin hne hne2
      rw [hnewk, hnewk, if_neg hne, if_neg hne2]
      exact hheap i hi2 (by omega)
    · intro c _ hcn hc
      omega
  unfold percolate at h
  obtain ⟨r1, r2, r3, r4⟩ := percolateLoop_spec _ _ (n + 1) res hwf1 (by omega)
    (Nat.le_refl _) hA h
  refine ⟨r1, r4, ?_, r2.1, r2.2.1, ?_, r3.2.2⟩
  · intro e
    rw [r2.2.2 ⟨e.1, e.2⟩, List.mem_append, hcont e]
    simp only [List.mem_singleton]
    constructor
    · rintro (⟨i, hi1, hi, hie⟩ | he)
      · have hi : i ≤ n := hi
        refine ⟨i, hi1, by show i ≤ n + 1; omega, ?_⟩
        rw [hnew, if_neg (by omega)]
        exact hie
      · refine ⟨n + 1, by omega, Nat.le_refl _, ?_⟩
        rw [hnew, if_pos rfl, he]
    · rintro ⟨i, hi1, hi, hie⟩
      have hi : i ≤ n + 1 := hi
      rw [hnew] at hie
      by_cases ei : i = n + 1
      · rw [if_pos ei] at hie
        right
        cases e
        simp only [KeyValuePair.mk.injEq] at hie
        rw [hie.1, hie.2]
      · rw [if_neg ei] at hie
        exact Or.inl ⟨i, hi1, by show i ≤ n; omega, hie⟩
  · obtain ⟨t1, t2, _⟩ := r3
    simp only at t1 t2
    exact ⟨by rw [t1]; exact hok.1, by rw [t2, t1]; exact hok.2⟩

end PriorityQueue

namespace PriorityQueue

variable {V : Type} [Inhabited V]

/-- A successful `insert` of a key that is not in the queue keeps the
invariant and adds the pair. -/
theorem insert_inv (pq pq1 : PriorityQueue V) (l : List (Nat × V)) (k : Nat) (v : V)
    (hinv : Inv pq l) (hk : ∀ e, e ∈ l → e.1 ≠ k) (h : pq.insert k v = some (true, pq1)) :
    Inv pq1 (l ++ [(k, v)]) ∧ pq1.num_element = pq.num_element + 1 ∧
      pq1.max_size = pq.max_size := by
  unfold insert at h
  cases hg : pq.get k with
  | none => rw [hg] at h; cases h
  | some found =>
    rw [hg] at h
    simp only at h
    by_cases hc : found.isSome = true ∨ pq.num_element + 1 > pq.max_size
    · rw [if_pos hc] at h
      simp at h
    · rw [if_neg hc] at h
      have hfull : pq.num_element + 1 ≤ pq.max_size := by
        by_contra hx
        exact hc (Or.inr (by omega))
      cases hp : percolate
          { pq with
            binary_heap := pq.binary_heap.set (pq.num_element + 1) ⟨k, v⟩
            num_element := pq.num_element + 1 }
          (pq.num_element + 1) with
      | none => rw [hp] at h; cases h
      | some res =>
        obtain ⟨pq2, kp⟩ := res
        rw [hp] at h
        simp only at h
        obtain ⟨hwf2, hheap2, hcont2, hn2, hm2, hok2, hget2⟩ :=
          insert_heap pq l k v (pq2, kp) hinv hk hfull hp
        simp only at hwf2 hheap2 hcont2 hn2 hm2 hok2 hget2
        cases hi : HashTable.insert pq2.ht k kp with
        | none => rw [hi] at h; cases h
        | some r =>
          rw [hi] at h
          simp only [Option.map_some', Option.some.injEq, Prod.mk.injEq, true_and] at h
          obtain ⟨hok3, hfk, hpres⟩ := HashTable.insertAux_spec 3 pq2.ht k kp r hok2 hi
          rw [← h]
          refine ⟨⟨hwf2, hheap2, hcont2, hok3, ?_⟩, hn2, hm2⟩
          intro i hi1 hin
          have hin : i ≤ pq2.num_element := hin
          have hmem := (hcont2 (pq2.keyAt i, (pq2.heap i).value)).2 ⟨i, hi1, hin, rfl⟩
          show Found r.2 (pq2.keyAt i)
          rcases List.mem_append.1 hmem with hm | hm
          · obtain ⟨j, hj1, hj, hje⟩ := (hinv.2.2.1 _).1 hm
            have hkj : pq.keyAt j = pq2.keyAt i := by
              show (pq.heap j).key = _
              rw [hje]
            obtain ⟨p, hp1⟩ := hinv.2.2.2.2 j hj1 hj
            apply hpres
            refine ⟨p, ?_⟩
            rw [hget2, ← hkj]
            exact hp1
          · simp only [List.mem_singleton, Prod.mk.injEq] at hm
            rw [hm.1]
            exact hfk

theorem percolate_empty (pq : PriorityQueue V) (h : pq.num_element = 0) :
    percolate pq 1 = some (pq, 1) := by
  unfold percolate
  rw [h]
  have hc : ¬ percolateCond pq 1 := by
    unfold percolateCond
    rw [h]
    simp
  show percolateLoop (1 + 0 + 1) pq 1 = _
  rw [percolateLoop, if_neg hc]

/-- On a non-empty queue `deleteMin` returns true, keeps the invariant and
removes the pair of least key. -/
theorem deleteMin_inv (pq : PriorityQueue V) (l : List (Nat × V)) (hinv : Inv pq l)
    (hn : 1 ≤ pq.num_element) :
    ∃ pq1, pq.deleteMin = some (true, pq1) ∧ Inv pq1 (withoutMin l) ∧
      pq1.num_element = pq.num_element - 1 ∧ pq1.max_size = pq.max_size := by
  obtain ⟨⟨hlen, hmax, h0, hinj⟩, hheap, hcont, hok, hsync⟩ := hinv
  obtain ⟨t1, hrem, hok1, hsame⟩ := HashTable.remove_spec pq.ht (pq.heap 1).key hok
    (hsync 1 (Nat.le_refl _) hn)
  unfold deleteMin
  rw [if_neg (by omega), hrem]
  simp only
  obtain ⟨bh, ht, ms, n⟩ := pq
  simp only at hlen hmax hn hheap hsame hok1 ⊢
  have hlt1 : 1 < bh.length := by omega
  -- the array after the root has been overwritten
  have hnew : ∀ i, (⟨bh.set 1 ((⟨bh, ht, ms, n⟩ : PriorityQueue V).heap n), t1, ms, n - 1⟩ :
      PriorityQueue V).heap i =
      if i = 1 then (⟨bh, ht, ms, n⟩ : PriorityQueue V).heap n
      else (⟨bh, ht, ms, n⟩ : PriorityQueue V).heap i := by
    intro i
    rw [heap_set]
    by_cases e : i = 1
    · simp [e, hlt1]
    · simp [e, heap]
  have hnewk : ∀ i, (⟨bh.set 1 ((⟨bh, ht, ms, n⟩ : PriorityQueue V).heap n), t1, ms, n - 1⟩ :
      PriorityQueue V).keyAt i =
      if i = 1 then (⟨bh, ht, ms, n⟩ : PriorityQueue V).keyAt n
      else (⟨bh, ht, ms, n⟩ : PriorityQueue V).keyAt i := by
    intro i
    show ((⟨bh.set 1 ((⟨bh, ht, ms, n⟩ : PriorityQueue V).heap n), t1, ms, n - 1⟩ :
      PriorityQueue V).heap i).key = _
    rw [hnew]
    by_cases e : i = 1
    · simp [e, keyAt]
    · simp [e, keyAt]
  have hwf1 : HeapWf (⟨bh.set 1 ((⟨bh, ht, ms, n⟩ : PriorityQueue V).heap n), t1, ms, n - 1⟩ :
      PriorityQueue V) := by
    refine ⟨by simpa using hlen, by show n - 1 ≤ ms; omega, ?_, ?_⟩
    · rw [hnewk, if_neg (by omega)]
      exact h0
    · intro i j hi1 hi hj1 hj hij
      have hi : i ≤ n - 1 := hi
      have hj : j ≤ n - 1 := hj
      rw [hnewk, hnewk] at hij
      by_cases ei : i = 1
      · by_cases ej : j = 1
        · rw [ei, ej]
        · rw [if_pos ei, if_neg ej] at hij
          have := hinj n j (by omega) (Nat.le_refl _) hj1 (by show j ≤ n; omega) hij
          omega
      · by_cases ej : j = 1
        · rw [if_neg ei, if_pos ej] at hij
          have := hinj i n hi1 (by show i ≤ n; omega) (by omega) (Nat.le_refl _) hij
          omega
        · rw [if_neg ei, if_neg ej] at hij
          exact hinj i j hi1 (by show i ≤ n; omega) hj1 (by show j ≤ n; omega) hij
  have hA : AlmostHeap (⟨bh.set 1 ((⟨bh, ht, ms, n⟩ : PriorityQueue V).heap n), t1, ms,
      n - 1⟩ : PriorityQueue V).keyAt (n - 1) 1 := by
    constructor
    · intro i hi2 hin hne hne2
      rw [hnewk, hnewk, if_neg hne, if_neg hne2]
      exact hheap i hi2 (by omega)
    · intro c h2 _ _
      omega
  -- the live keys other than the old root are still answered by the table
  have hkeys : ∀ i, 1 ≤ i → i ≤ n - 1 →
      Found t1 ((⟨bh.set 1 ((⟨bh, ht, ms, n⟩ : PriorityQueue V).heap n), t1, ms, n - 1⟩ :
        PriorityQueue V).keyAt i) := by
    intro i hi1 hi
    rw [hnewk]
    have hroot : ∀ j, 2 ≤ j → j ≤ n →
        (⟨bh, ht, ms, n⟩ : PriorityQueue V).keyAt j ≠
          ((⟨bh, ht, ms, n⟩ : PriorityQueue V).heap 1).key := by
      intro j hj2 hj e
      have := hinj j 1 (by omega) hj (Nat.le_refl _) hn e
      omega
    by_cases ei : i = 1
    · rw [if_pos ei]
      obtain ⟨p, hp⟩ := hsync n (by omega) (Nat.le_refl _)
      exact ⟨p, by rw [hsame _ (hroot n (by omega) (Nat.le_refl _))]; exact hp⟩
    · rw [if_neg ei]
      obtain ⟨p, hp⟩ := hsync i hi1 (by show i ≤ n; omega)
      exact ⟨p, by rw [hsame _ (hroot i (by omega) (by omega))]; exact hp⟩
  -- percolate returns
  have hperc : ∃ res, percolate (⟨bh.set 1 ((⟨bh, ht, ms, n⟩ : PriorityQueue V).heap n), t1,
      ms, n - 1⟩ : PriorityQueue V) 1 = some res ∧ HeapWf res.1 ∧
      SameLive (⟨bh.set 1 ((⟨bh, ht, ms, n⟩ : PriorityQueue V).heap n), t1, ms, n - 1⟩ :
        PriorityQueue V) res.1 ∧
      SameTable (⟨bh.set 1 ((⟨bh, ht, ms, n⟩ : PriorityQueue V).heap n), t1, ms, n - 1⟩ :
        PriorityQueue V) res.1 ∧
      IsHeap res.1.keyAt res.1.num_element := by
    by_cases hz : n - 1 = 0
    · refine ⟨_, percolate_empty _ hz, hwf1, sameLive_refl _, sameTable_refl _, ?_⟩
      intro i hi2 hi
      have hi : i ≤ n - 1 := hi
      omega
    · have hterm := percolateLoop_down (1 + (n - 1) + 1) _ 1 hwf1 (Nat.le_refl _)
        (by show 1 ≤ n - 1; omega) (Or.inl rfl)
        (fun i hi1 hi => by
          obtain ⟨p, hp⟩ := hkeys i hi1 hi
          show HashTable.getPos t1 _ ≠ none
          rw [hp]
          exact fun x => by cases x)
        (by show n - 1 - 1 < 1 + (n - 1) + 1; omega)
      obtain ⟨res, hres⟩ := hterm
      have hspec := percolateLoop_spec _ _ 1 res hwf1 (Nat.le_refl _)
        (by show 1 ≤ n - 1; omega) hA hres
      exact ⟨res, hres, hspec⟩
  obtain ⟨res, hres, r1, r2, r3, r4⟩ := hperc
  rw [hres]
  refine ⟨res.1, rfl, ⟨r1, r4, ?_, ?_, ?_⟩, r2.1, r2.2.1⟩
  · -- contents
    intro e
    rw [r2.2.2 ⟨e.1, e.2⟩, mem_withoutMin]
    have hrootle := root_le _ _ hheap
    constructor
    · rintro ⟨hel, e1, he1, hlt⟩
      obtain ⟨i, hi1, hi, hie⟩ := (hcont e).1 hel
      obtain ⟨j, hj1, hj, hje⟩ := (hcont e1).1 he1
      have hi : i ≤ n := hi
      have hj : j ≤ n := hj
      have hki : (⟨bh, ht, ms, n⟩ : PriorityQueue V).keyAt i = e.1 := by
        show ((⟨bh, ht, ms, n⟩ : PriorityQueue V).heap i).key = _
        rw [hie]
      have hkj : (⟨bh, ht, ms, n⟩ : PriorityQueue V).keyAt j = e1.1 := by
        show ((⟨bh, ht, ms, n⟩ : PriorityQueue V).heap j).key = _
        rw [hje]
      have hi2 : i ≠ 1 := by
        intro e1i
        have := hrootle j hj1 hj
        rw [e1i] at hki
        omega
      by_cases hin : i = n
      · refine ⟨1, Nat.le_refl _, by show 1 ≤ n - 1; omega, ?_⟩
        rw [hnew, if_pos rfl, ← hin]
        exact hie
      · refine ⟨i, hi1, by show i ≤ n - 1; omega, ?_⟩
        rw [hnew, if_neg hi2]
        exact hie
    · rintro ⟨i, hi1, hi, hie⟩
      have hi : i ≤ n - 1 := hi
      rw [hnew] at hie
      have key : ∀ j, 2 ≤ j → j ≤ n →
          (⟨bh, ht, ms, n⟩ : PriorityQueue V).heap j = ⟨e.1, e.2⟩ →
          e ∈ l ∧ ∃ e1, e1 ∈ l ∧ e1.1 < e.1 := by
        intro j hj2 hj hje
        refine ⟨(hcont e).2 ⟨j, by omega, hj, hje⟩, ?_⟩
        refine ⟨((⟨bh, ht, ms, n⟩ : PriorityQueue V).keyAt 1,
          ((⟨bh, ht, ms, n⟩ : PriorityQueue V).heap 1).value),
          (hcont _).2 ⟨1, Nat.le_refl _, hn, rfl⟩, ?_⟩
        have h1 := hrootle j (by omega) hj
        have hkj : (⟨bh, ht, ms, n⟩ : PriorityQueue V).keyAt j = e.1 := by
          show ((⟨bh, ht, ms, n⟩ : PriorityQueue V).heap j).key = _
          rw [hje]
        have hne : (⟨bh, ht, ms, n⟩ : PriorityQueue V).keyAt 1 ≠
            (⟨bh, ht, ms, n⟩ : PriorityQueue V).keyAt j := by
          intro x
          have := hinj 1 j (Nat.le_refl _) hn (by omega) hj x
          omega
        show (⟨bh, ht, ms, n⟩ : PriorityQueue V).keyAt 1 < e.1
        omega
      by_cases ei : i = 1
      · rw [if_pos ei] at hie
        exact key n (by omega) (Nat.le_refl _) hie
      · rw [if_neg ei] at hie
        exact key i (by omega) (by omega) hie
  · exact ⟨by rw [r3.1]; exact hok1.1, by rw [r3.2.1, r3.1]; exact hok1.2⟩
  · intro i hi1 hi
    obtain ⟨j, hj1, hj, hje⟩ := (r2.2.2 (res.1.heap i)).1 ⟨i, hi1, hi, rfl⟩
    obtain ⟨p, hp⟩ := hkeys j hj1 hj
    refine ⟨p, ?_⟩
    rw [r3.2.2]
    have : res.1.keyAt i = (⟨bh.set 1 ((⟨bh, ht, ms, n⟩ : PriorityQueue V).heap n), t1, ms,
        n - 1⟩ : PriorityQueue V).keyAt j := by
      show (res.1.heap i).key = ((⟨bh.set 1 ((⟨bh, ht, ms, n⟩ : PriorityQueue V).heap n),
        t1, ms, n - 1⟩ : PriorityQueue V).heap j).key
      rw [hje]
    rw [this]
    exact hp

end PriorityQueue

namespace PriorityQueue

variable {V : Type} [Inhabited V]

/-- A newly constructed queue satisfies the invariant with no pairs. -/
theorem new_inv (maxSize : Nat) (pq0 : PriorityQueue V)
    (h : (new maxSize : Option (Except String (PriorityQueue V))) = some (Except.ok pq0)) :
    Inv pq0 [] ∧ pq0.num_element = 0 ∧ pq0.max_size = maxSize := by
  unfold new at h
  cases hp : nextPrime maxSize with
  | none => rw [hp] at h; cases h
  | some size =>
    rw [hp] at h
    simp only at h
    unfold HashTable.new at h
    by_cases hs : size = 0
    · rw [if_pos hs] at h
      cases h
    · rw [if_neg hs] at h
      by_cases hpr : (!HashTable.isPrime size) = true
      · rw [if_pos hpr] at h
        cases h
      · rw [if_neg hpr] at h
        simp only at h
        by_cases hz : maxSize = 0
        · rw [if_pos hz] at h
          cases h
        · rw [if_neg hz] at h
          simp only [Option.some.injEq, Except.ok.injEq] at h
          rw [← h]
          refine ⟨⟨⟨by simp, Nat.zero_le _, ?_, ?_⟩, ?_, ?_, ⟨by show 0 < size; omega, by simp⟩,
            ?_⟩, rfl, rfl⟩
          · show ((List.replicate (maxSize + 1) KeyValuePair.init).getD 0
              (KeyValuePair.init : KeyValuePair V)).key = 0
            simp [List.replicate, KeyValuePair.init]
          · intro i j hi1 hi
            have hi : i ≤ 0 := hi
            omega
          · intro i hi2 hi
            have hi : i ≤ 0 := hi
            omega
          · intro e
            constructor
            · intro he; cases he
            · rintro ⟨i, hi1, hi, _⟩
              have hi : i ≤ 0 := hi
              omega
          · intro i hi1 hi
            have hi : i ≤ 0 := hi
            omega

theorem content_empty (pq : PriorityQueue V) (l : List (Nat × V)) (hc : Content pq l)
    (hn : pq.num_element = 0) : l = [] := by
  cases l with
  | nil => rfl
  | cons e rest =>
    obtain ⟨i, hi1, hi, _⟩ := (hc e).1 (List.mem_cons_self _ _)
    omega

/-- A completed `deleteMin` keeps the invariant and removes the pair of
least key, if there is one. -/
theorem deleteMin_inv_of_eq (pq pq1 : PriorityQueue V) (l : List (Nat × V)) (b : Bool)
    (hinv : Inv pq l) (h : pq.deleteMin = some (b, pq1)) : Inv pq1 (withoutMin l) := by
  by_cases hn : pq.num_element = 0
  · have hl := content_empty pq l hinv.2.2.1 hn
    unfold deleteMin at h
    rw [if_pos hn] at h
    simp only [Option.some.injEq, Prod.mk.injEq] at h
    rw [← h.2, hl]
    rw [hl] at hinv
    exact hinv
  · obtain ⟨pq2, h2, hinv2, _⟩ := deleteMin_inv pq l hinv (by omega)
    rw [h2] at h
    simp only [Option.some.injEq, Prod.mk.injEq] at h
    rw [← h.2]
    exact hinv2

theorem mem_withoutMin_subset (l : List (Nat × V)) (e : Nat × V) (h : e ∈ withoutMin l) :
    e ∈ l := ((mem_withoutMin l e).1 h).1

/-- The invariant holds after every sequence of successful inserts of
pairwise distinct keys and `deleteMin` calls, for the pairs inserted and not
yet removed. -/
theorem runCalls_inv (calls : List (Call V)) :
    ∀ (pq pq1 : PriorityQueue V) (l : List (Nat × V)), Inv pq l →
      (insertedKeys calls).Nodup → (∀ e, e ∈ l → e.1 ∉ insertedKeys calls) →
      runCalls pq calls = some pq1 → Inv pq1 (pending l calls) := by
  induction calls with
  | nil =>
    intro pq pq1 l hinv _ _ h
    simp only [runCalls, Option.some.injEq] at h
    rw [← h]
    exact hinv
  | cons c rest ih =>
    intro pq pq1 l hinv hnd hdisj h
    cases c with
    | insert k v =>
      simp only [insertedKeys, List.nodup_cons] at hnd
      simp only [insertedKeys, List.mem_cons, not_or] at hdisj
      rw [runCalls] at h
      cases hi : pq.insert k v with
      | none => rw [hi] at h; cases h
      | some r =>
        obtain ⟨b, pq2⟩ := r
        rw [hi] at h
        cases b with
        | false => cases h
        | true =>
          simp only at h
          obtain ⟨hinv2, _, _⟩ := insert_inv pq pq2 l k v hinv
            (fun e he x => (hdisj e he).1 x) hi
          refine ih pq2 pq1 (l ++ [(k, v)]) hinv2 hnd.2 ?_ h
          intro e he
          rcases List.mem_append.1 he with he | he
          · exact (hdisj e he).2
          · simp only [List.mem_singleton] at he
            rw [he]
            exact hnd.1
    | deleteMin =>
      simp only [insertedKeys] at hnd hdisj
      rw [runCalls] at h
      cases hd : pq.deleteMin with
      | none => rw [hd] at h; cases h
      | some r =>
        obtain ⟨b, pq2⟩ := r
        rw [hd] at h
        simp only at h
        exact ih pq2 pq1 (withoutMin l) (deleteMin_inv_of_eq pq pq2 l b hinv hd) hnd
          (fun e he => hdisj e (mem_withoutMin_subset l e he)) h

/-- The queue built by successful inserts of pairwise distinct keys holds
exactly those pairs. -/
theorem runCalls_insertAll (kvs : List (Nat × V)) :
    ∀ (pq pq1 : PriorityQueue V) (l : List (Nat × V)), Inv pq l →
      (kvs.map Prod.fst).Nodup → (∀ e, e ∈ l → e.1 ∉ kvs.map Prod.fst) →
      runCalls pq (insertAll kvs) = some pq1 →
      Inv pq1 (l ++ kvs) ∧ pq1.num_element = pq.num_element + kvs.length ∧
        pq1.max_size = pq.max_size := by
  induction kvs with
  | nil =>
    intro pq pq1 l hinv _ _ h
    simp only [insertAll, List.map_nil, runCalls, Option.some.injEq] at h
    rw [← h]
    simpa using hinv
  | cons kv rest ih =>
    intro pq pq1 l hinv hnd hdisj h
    simp only [List.map_cons, List.nodup_cons] at hnd
    simp only [List.map_cons, List.mem_cons, not_or] at hdisj
    simp only [insertAll, List.map_cons] at h
    rw [runCalls] at h
    cases hi : pq.insert kv.1 kv.2 with
    | none => rw [hi] at h; cases h
    | some r =>
      obtain ⟨b, pq2⟩ := r
      rw [hi] at h
      cases b with
      | false => cases h
      | true =>
        simp only at h
        obtain ⟨hinv2, hn2, hm2⟩ := insert_inv pq pq2 l kv.1 kv.2 hinv
          (fun e he x => (hdisj e he).1 x) hi
        have := ih pq2 pq1 (l ++ [(kv.1, kv.2)]) hinv2 hnd.2 (by
          intro e he
          rcases List.mem_append.1 he with he | he
          · exact (hdisj e he).2
          · simp only [List.mem_singleton] at he
            rw [he]
            exact hnd.1) h
        obtain ⟨r1, r2, r3⟩ := this
        refine ⟨by simpa using r1, ?_, by rw [r3, hm2]⟩
        rw [r2, hn2]
        simp only [List.length_cons]
        omega

/-- Calling `deleteMin` until it returns false on a queue that satisfies the
invariant: the loop ends after `num_element` successful calls and the keys
read are the keys of the queue in increasing order. -/
theorem drain_spec (n : Nat) :
    ∀ (pq : PriorityQueue V) (l : List (Nat × V)), Inv pq l → pq.num_element = n →
      ∃ ks pq1, (∀ fuel, n < fuel → drain fuel pq = some (ks, pq1)) ∧ ks.length = n ∧
        ks.Pairwise (fun a b => a < b) ∧ (∀ k, k ∈ ks ↔ ∃ e, e ∈ l ∧ e.1 = k) ∧
        pq1.num_element = 0 := by
  induction n with
  | zero =>
    intro pq l hinv hn
    have hl := content_empty pq l hinv.2.2.1 hn
    refine ⟨[], pq, ?_, rfl, List.Pairwise.nil, ?_, hn⟩
    · intro fuel hf
      obtain ⟨f, rfl⟩ : ∃ f, fuel = f + 1 := ⟨fuel - 1, by omega⟩
      rw [drain]
      have : pq.deleteMin = some (false, pq) := by
        unfold deleteMin
        rw [if_pos hn]
      rw [this]
    · intro k
      rw [hl]
      simp
  | succ n ih =>
    intro pq l hinv hn
    obtain ⟨pq2, hd, hinv2, hn2, _⟩ := deleteMin_inv pq l hinv (by omega)
    obtain ⟨ks, pq1, hdr, hlen, hsorted, hmem, hz⟩ := ih pq2 (withoutMin l) hinv2 (by omega)
    have hrootle := root_le _ _ hinv.2.1
    have hrootmem : (pq.keyAt 1, (pq.heap 1).value) ∈ l :=
      (hinv.2.2.1 _).2 ⟨1, Nat.le_refl _, by omega, rfl⟩
    have hmin : ∀ e, e ∈ l → pq.keyAt 1 ≤ e.1 := by
      intro e he
      obtain ⟨i, hi1, hi, hie⟩ := (hinv.2.2.1 e).1 he
      have := hrootle i hi1 hi
      have hk : pq.keyAt i = e.1 := by
        show (pq.heap i).key = _
        rw [hie]
      omega
    refine ⟨(pq.heap 1).key :: ks, pq1, ?_, by simp [hlen], ?_, ?_, hz⟩
    · intro fuel hf
      obtain ⟨f, rfl⟩ : ∃ f, fuel = f + 1 := ⟨fuel - 1, by omega⟩
      rw [drain, hd]
      simp only [getMinKey]
      rw [hdr f (by omega)]
      rfl
    · refine List.Pairwise.cons ?_ hsorted
      intro k hk
      obtain ⟨e, he, hek⟩ := (hmem k).1 hk
      obtain ⟨hel, e1, he1, hlt⟩ := (mem_withoutMin l e).1 he
      have := hmin e1 he1
      show pq.keyAt 1 < k
      omega
    · intro k
      constructor
      · intro hk
        rcases List.mem_cons.1 hk with hk | hk
        · exact ⟨_, hrootmem, hk.symm⟩
        · obtain ⟨e, he, hek⟩ := (hmem k).1 hk
          exact ⟨e, mem_withoutMin_subset l e he, hek⟩
      · rintro ⟨e, he, hek⟩
        by_cases hsm : ∃ e1, e1 ∈ l ∧ e1.1 < e.1
        · exact List.mem_cons_of_mem _ ((hmem k).2 ⟨e, (mem_withoutMin l e).2 ⟨he, hsm⟩, hek⟩)
        · have h1 : ¬ pq.keyAt 1 < e.1 := fun x => hsm ⟨_, hrootmem, x⟩
          have h2 := hmin e he
          have : k = (pq.heap 1).key := by
            show k = pq.keyAt 1
            omega
          rw [this]
          exact List.mem_cons_self _ _

end PriorityQueue

/-! ## Priority queue: the claims -/

open PriorityQueue

/-- C9: on a queue reached from `PriorityQueue(maxSize)` by successful inserts
of pairwise distinct keys and `deleteMin` calls, if the queue is not empty then
`getMinKey()` yields the least key among the pairs inserted and not yet
removed, and `getMinValue()` yields the value inserted with that key. -/
theorem C9_getMin_yields_least_pending_pair {V : Type} [Inhabited V] (maxSize : Nat)
    (pq0 pq : PriorityQueue V) (calls : List (Call V))
    (hnew : (PriorityQueue.new maxSize : Option (Except String (PriorityQueue V))) =
      some (Except.ok pq0))
    (hkeys : (insertedKeys calls).Nodup)
    (hrun : runCalls pq0 calls = some pq)
    (hne : pq.numElements ≠ 0) :
    ∃ k v, getMinKey pq = some k ∧ getMinValue pq = some v ∧
      (k, v) ∈ pending [] calls ∧ ∀ e, e ∈ pending [] calls → k ≤ e.1 := by
  obtain ⟨hinv0, _, _⟩ := new_inv maxSize pq0 hnew
  have hinv := runCalls_inv calls pq0 pq [] hinv0 hkeys (fun e he => by cases he) hrun
  have hn : 1 ≤ pq.num_element := by
    have : pq.num_element ≠ 0 := hne
    omega
  refine ⟨(pq.heap 1).key, (pq.heap 1).value, rfl, rfl, ?_, ?_⟩
  · exact (hinv.2.2.1 _).2 ⟨1, Nat.le_refl _, hn, rfl⟩
  · intro e he
    obtain ⟨i, hi1, hi, hie⟩ := (hinv.2.2.1 e).1 he
    have := root_le _ _ hinv.2.1 i hi1 hi
    have hk : pq.keyAt i = e.1 := by
      show (pq.heap i).key = _
      rw [hie]
    show pq.keyAt 1 ≤ e.1
    omega

/-- C9 on the scenario of the specification: after insert(10), insert(3),
insert(7) and one `deleteMin` on `PriorityQueue(5)`, `getMinKey()` yields 7. -/
theorem C9_getMin_yields_least_pending_pair_witness :
    (PriorityQueue.new 5 : Option (Except String (PriorityQueue Nat))) =
      some (Except.ok demoStart) ∧
    (insertedKeys demoCalls).Nodup ∧ runCalls demoStart demoCalls = some demoQueue ∧
    demoQueue.numElements ≠ 0 ∧ getMinKey demoQueue = some 7 ∧
    pending [] demoCalls = [(10, 1), (7, 3)] ∧
    ∃ k v, getMinKey demoQueue = some k ∧ getMinValue demoQueue = some v ∧
      (k, v) ∈ pending [] demoCalls ∧ ∀ e, e ∈ pending [] demoCalls → k ≤ e.1 :=
  ⟨rfl, by decide, by decide!, by decide, rfl, by decide,
    C9_getMin_yields_least_pending_pair 5 demoStart demoQueue demoCalls rfl (by decide)
      (by decide!) (by decide)⟩

/-- C10: on a queue built from `PriorityQueue(maxSize)` by the inserts of `n`
pairs with pairwise distinct keys, `n <= maxSize`, calling `deleteMin()` until
it returns false ends after exactly `n` successful calls (given at least
`n + 1` iterations), `getMinKey()` is not null before any of them, and the keys
read with `getMinKey()` before the successful calls are the inserted keys in
strictly increasing order; the queue is then empty. -/
theorem C10_deleteMin_until_empty_yields_sorted_keys {V : Type} [Inhabited V]
    (maxSize : Nat) (pq0 pq : PriorityQueue V) (kvs : List (Nat × V))
    (hnew : (PriorityQueue.new maxSize : Option (Except String (PriorityQueue V))) =
      some (Except.ok pq0))
    (hkeys : (kvs.map Prod.fst).Nodup)
    (_hsize : kvs.length ≤ maxSize)
    (hrun : runCalls pq0 (insertAll kvs) = some pq) :
    ∃ ks pq1, (∀ fuel, kvs.length < fuel → drain fuel pq = some (ks, pq1)) ∧
      ks.length = kvs.length ∧ ks.Pairwise (fun a b => a < b) ∧
      ks.Perm (kvs.map Prod.fst) ∧ pq1.numElements = 0 ∧
      (kvs ≠ [] → ∃ key, getMinKey pq = some key ∧ ks.head? = some key ∧
        key ∈ kvs.map Prod.fst ∧ ∀ k, k ∈ kvs.map Prod.fst → key ≤ k) := by
  obtain ⟨hinv0, hn0, hm0⟩ := new_inv maxSize pq0 hnew
  obtain ⟨hinv, hn, hm⟩ := runCalls_insertAll kvs pq0 pq [] hinv0 hkeys
    (fun e he => by cases he) hrun
  rw [hn0, Nat.zero_add] at hn
  simp only [List.nil_append] at hinv
  obtain ⟨ks, pq1, hdr, hlen, hsorted, hmem, hz⟩ := drain_spec kvs.length pq kvs hinv hn
  have hnd : ks.Nodup := by
    apply List.Pairwise.imp _ hsorted
    intro a b hab
    omega
  have hperm : ks.Perm (kvs.map Prod.fst) := by
    rw [List.perm_ext_iff_of_nodup hnd hkeys]
    intro k
    rw [hmem k, List.mem_map]
  refine ⟨ks, pq1, hdr, hlen, hsorted, hperm, hz, ?_⟩
  intro hne
  have hpos : 0 < kvs.length := List.length_pos.2 hne
  have hd := hdr (kvs.length + 1) (Nat.lt_succ_self _)
  cases ks with
  | nil => simp at hlen; omega
  | cons key rest =>
    have hkey : getMinKey pq = some key := by
      rw [drain] at hd
      cases hdm : pq.deleteMin with
      | none => rw [hdm] at hd; cases hd
      | some x =>
        obtain ⟨b, pq2⟩ := x
        rw [hdm] at hd
        cases b with
        | false => simp at hd
        | true =>
          simp only at hd
          cases hg : getMinKey pq with
          | none => rw [hg] at hd; cases hd
          | some key1 =>
            rw [hg] at hd
            simp only [Option.map_eq_some', Prod.mk.injEq, List.cons.injEq] at hd
            obtain ⟨r, _, hr, _⟩ := hd
            rw [hr.1]
    refine ⟨key, hkey, rfl, hperm.subset (List.mem_cons_self _ _), ?_⟩
    intro k hk
    have hk1 : k ∈ key :: rest := hperm.symm.subset hk
    rcases List.mem_cons.1 hk1 with e | e
    · omega
    · have := List.rel_of_pairwise_cons hsorted e
      omega

/-- C10 on the scenario of the specification: the queue built by insert(10),
insert(3), insert(7) on `PriorityQueue(5)` is drained by three successful
calls of `deleteMin`, which read the keys 3, 7, 10. -/
theorem C10_deleteMin_until_empty_yields_sorted_keys_witness :
    (PriorityQueue.new 5 : Option (Except String (PriorityQueue Nat))) =
      some (Except.ok demoStart) ∧
    (demoPairs.map Prod.fst).Nodup ∧ runCalls demoStart (insertAll demoPairs) = some demoBuilt ∧
    demoPairs.length ≤ 5 ∧
    (drain 4 demoBuilt).map Prod.fst = some [3, 7, 10] ∧ getMinKey demoBuilt = some 3 ∧
    (∃ ks pq1, (∀ fuel, demoPairs.length < fuel → drain fuel demoBuilt = some (ks, pq1)) ∧
      ks.length = demoPairs.length ∧ ks.Pairwise (fun a b => a < b) ∧
      ks.Perm (demoPairs.map Prod.fst) ∧ pq1.numElements = 0 ∧
      (demoPairs ≠ [] → ∃ key, getMinKey demoBuilt = some key ∧ ks.head? = some key ∧
        key ∈ demoPairs.map Prod.fst ∧ ∀ k, k ∈ demoPairs.map Prod.fst → key ≤ k)) :=
  ⟨rfl, by decide, by decide!, by decide, by decide!, rfl,
    C10_deleteMin_until_empty_yields_sorted_keys 5 demoStart demoBuilt demoPairs rfl
      (by decide) (by decide) (by decide!)⟩

/-! ## Second part: the claims on the remaining operations -/

/-- C11, evaluated at a failing input.  The claim says that `get(k)` returns
the value inserted with `k`.  On `PriorityQueue(5)` the calls insert(1, 10),
insert(2, 20), deleteMin(), insert(3, 30) all return true and leave the pairs
(2, 20) and (3, 30) in the heap; `deleteMin` has moved (2, 20) to index 1
but the table still maps key 2 to index 2, where (3, 30) is stored now, so
`get(2)` returns 30. -/
theorem C11_get_returns_value_of_another_key :
    ∃ pq : PriorityQueue Nat,
      buildQueue 5 [QueueOp.insert 1 10, QueueOp.insert 2 20, QueueOp.deleteMin,
        QueueOp.insert 3 30] = some ([true, true, true, true], pq) ∧
      liveEntries pq = [(2, 20), (3, 30)] ∧
      HashTable.get pq.ht 2 = some (some 2) ∧
      PriorityQueue.get pq 2 = some (some 30) ∧
      PriorityQueue.get pq 3 = some (some 30) := by
  refine ⟨⟨[⟨0, 0⟩, ⟨2, 20⟩, ⟨3, 30⟩, ⟨0, 0⟩, ⟨0, 0⟩, ⟨0, 0⟩],
    ⟨[Pair.init, ⟨1, 1, Status.Deleted⟩, ⟨2, 2, Status.Occupied⟩, ⟨3, 2, Status.Occupied⟩,
      Pair.init], 5, 2⟩, 5, 2⟩, by decide!, by decide!, by decide!, by decide!, by decide!⟩

/-- C12, evaluated at a failing input.  The claim says that a successful
`remove(k)` takes exactly the entry of `k` out of the heap.  On
`PriorityQueue(5)` after insert(1, 10), insert(2, 20), deleteMin(),
insert(4, 40) the heap holds (2, 20) and (4, 40) and the table maps both
keys to index 2; `remove(2)` returns true and `numElements()` drops to 1, but
the entry taken out is (4, 40) and (2, 20) stays. -/
theorem C12_remove_takes_out_another_entry :
    ∃ pq pq1 : PriorityQueue Nat,
      buildQueue 5 [QueueOp.insert 1 10, QueueOp.insert 2 20, QueueOp.deleteMin,
        QueueOp.insert 4 40] = some ([true, true, true, true], pq) ∧
      liveEntries pq = [(2, 20), (4, 40)] ∧
      HashTable.get pq.ht 2 = some (some 2) ∧ HashTable.get pq.ht 4 = some (some 2) ∧
      PriorityQueue.remove pq 2 = some (true, pq1) ∧
      pq1.numElements = 1 ∧ liveEntries pq1 = [(2, 20)] ∧
      PriorityQueue.get pq1 4 = some (some 40) ∧ PriorityQueue.get pq1 2 = some none := by
  refine ⟨⟨[⟨0, 0⟩, ⟨2, 20⟩, ⟨4, 40⟩, ⟨0, 0⟩, ⟨0, 0⟩, ⟨0, 0⟩],
    ⟨[Pair.init, ⟨1, 1, Status.Deleted⟩, ⟨2, 2, Status.Occupied⟩, Pair.init,
      ⟨4, 2, Status.Occupied⟩], 5, 2⟩, 5, 2⟩,
    ⟨[⟨0, 0⟩, ⟨2, 20⟩, ⟨4, 40⟩, ⟨0, 0⟩, ⟨0, 0⟩, ⟨0, 0⟩],
    ⟨[Pair.init, ⟨1, 1, Status.Deleted⟩, ⟨2, 2, Status.Deleted⟩, Pair.init,
      ⟨4, 2, Status.Occupied⟩], 5, 1⟩, 5, 1⟩,
    by decide!, by decide!, by decide!, by decide!, by decide!, rfl, by decide!, by decide!,
    by decide!⟩

/-- C13, evaluated at failing inputs.  The claim says that `getMinKey()` and
`getMinValue()` return null on an empty queue.  They return the address of
`binary_heap[1]` whatever `num_element` is: on the new `PriorityQueue(5)` they
yield key 0 and the default value, and after insert(3, 30), deleteMin() they
yield the removed pair (3, 30); the result is never null. -/
theorem C13_getMin_on_empty_queue_is_not_null :
    (PriorityQueue.new 5 : Option (Except String (PriorityQueue Nat))) =
      some (Except.ok demoStart) ∧
    demoStart.numElements = 0 ∧
    getMinKey demoStart = some 0 ∧ getMinValue demoStart = some 0 ∧
    (∃ pq : PriorityQueue Nat,
      buildQueue 5 [QueueOp.insert 3 30, QueueOp.deleteMin] = some ([true, true], pq) ∧
      pq.numElements = 0 ∧ getMinKey pq = some 3 ∧ getMinValue pq = some 30) ∧
    ∀ pq : PriorityQueue Nat, getMinKey pq ≠ none ∧ getMinValue pq ≠ none := by
  refine ⟨rfl, rfl, rfl, rfl, ?_, ?_⟩
  · refine ⟨⟨[⟨0, 0⟩, ⟨3, 30⟩, ⟨0, 0⟩, ⟨0, 0⟩, ⟨0, 0⟩, ⟨0, 0⟩],
      ⟨[Pair.init, Pair.init, Pair.init, ⟨3, 1, Status.Deleted⟩, Pair.init], 5, 0⟩, 5, 0⟩,
      by decide!, rfl, rfl, rfl⟩
  · intro pq
    exact ⟨Option.some_ne_none _, Option.some_ne_none _⟩

/-- C14, evaluated at a failing input.  The claim says that after
`decreaseKey(k, c)` the call `get(k)` returns null.  `PriorityQueue(4)` gets an
internal table of capacity 4, which `isPrime` accepts.  After insert(7, 70),
insert(10, 100) the call decreaseKey(10, 6) returns true, `getMinKey()` yields
4, `getMinValue()` yields 100 and `numElements()` is still 2.  The table then
holds key 4 in bucket 0, the Deleted key 10 in bucket 2 and key 7 in bucket 3;
only bucket 1 is Empty.  The probe routine computes bucket 2 or 3 for key 10
at every value of its counter (4 divides `2 ^ 32`), and none of the buckets 0,
2, 3 lets the loop of `get(10)` exit, so `get(10)` does not return, whatever
the number of iterations. -/
theorem C14_get_of_old_key_after_decreaseKey_does_not_return :
    ∃ pq pq1 : PriorityQueue Nat,
      buildQueue 4 [QueueOp.insert 7 70, QueueOp.insert 10 100] =
        some ([true, true], pq) ∧
      pq.ht.tableSize = 4 ∧ liveEntries pq = [(7, 70), (10, 100)] ∧
      decreaseKey pq 10 6 = some (true, pq1) ∧
      getMinKey pq1 = some 4 ∧ getMinValue pq1 = some 100 ∧ pq1.numElements = 2 ∧
      pq1.ht.tableSize = 4 ∧
      (∀ pos, pos < 4 → pos ≠ 1 → ¬ HashTable.getStops pq1.ht 10 pos) ∧
      (∀ i, (HashTable.quadraticProb 4 i 10).2 = 2 ∨ (HashTable.quadraticProb 4 i 10).2 = 3) ∧
      PriorityQueue.get pq1 10 = none ∧
      ∀ fuel, HashTable.getLoop pq1.ht 10 fuel 1 (10 % pq1.ht.tableSize) = none := by
  have hstep : ∀ i, (HashTable.quadraticProb 4 i 10).2 = 2 ∨
      (HashTable.quadraticProb 4 i 10).2 = 3 := by
    intro i
    rw [HashTable.quadraticProb_snd 4 i 10 (by decide)]
    unfold HashTable.toUnsigned
    rw [Nat.mod_mod_of_dvd _ (by decide : 4 ∣ 4294967296), Nat.add_mod, Nat.pow_mod]
    have h4 : i % 4 < 4 := Nat.mod_lt _ (by decide)
    interval_cases i % 4 <;> simp
  have hstop : ∀ pos, pos < 4 → pos ≠ 1 → ¬ HashTable.getStops
      (⟨[⟨4, 1, Status.Occupied⟩, Pair.init, ⟨10, 2, Status.Deleted⟩, ⟨7, 2, Status.Occupied⟩],
        4, 2⟩ : HashTable Nat) 10 pos := by
    unfold HashTable.getStops
    decide
  have hloop : ∀ fuel i pos, pos = 2 ∨ pos = 3 → HashTable.getLoop
      (⟨[⟨4, 1, Status.Occupied⟩, Pair.init, ⟨10, 2, Status.Deleted⟩, ⟨7, 2, Status.Occupied⟩],
        4, 2⟩ : HashTable Nat) 10 fuel i pos = none :=
    HashTable.getLoop_none_of_closed _ 10 (fun pos => pos = 2 ∨ pos = 3) hstep
      (fun pos hpos => by
        rcases hpos with e | e
        · exact hstop pos (by omega) (by omega)
        · exact hstop pos (by omega) (by omega))
  refine ⟨⟨[⟨0, 0⟩, ⟨7, 70⟩, ⟨10, 100⟩, ⟨0, 0⟩, ⟨0, 0⟩],
    ⟨[Pair.init, Pair.init, ⟨10, 2, Status.Occupied⟩, ⟨7, 1, Status.Occupied⟩], 4, 2⟩, 4, 2⟩,
    ⟨[⟨0, 0⟩, ⟨4, 100⟩, ⟨7, 70⟩, ⟨0, 0⟩, ⟨0, 0⟩],
    ⟨[⟨4, 1, Status.Occupied⟩, Pair.init, ⟨10, 2, Status.Deleted⟩, ⟨7, 2, Status.Occupied⟩],
      4, 2⟩, 4, 2⟩,
    by decide!, rfl, by decide!, by decide!, rfl, rfl, rfl, rfl, hstop, hstep, ?_, ?_⟩
  · have hget : HashTable.getPos
        (⟨[⟨4, 1, Status.Occupied⟩, Pair.init, ⟨10, 2, Status.Deleted⟩,
          ⟨7, 2, Status.Occupied⟩], 4, 2⟩ : HashTable Nat) 10 = none :=
      hloop HashTable.probeFuel 1 2 (Or.inl rfl)
    exact (queue_calls_none_of_getPos_none
      (⟨[⟨0, 0⟩, ⟨4, 100⟩, ⟨7, 70⟩, ⟨0, 0⟩, ⟨0, 0⟩],
        ⟨[⟨4, 1, Status.Occupied⟩, Pair.init, ⟨10, 2, Status.Deleted⟩,
          ⟨7, 2, Status.Occupied⟩], 4, 2⟩, 4, 2⟩ : PriorityQueue Nat) 10 0 hget).1
  · intro fuel
    exact hloop fuel 1 2 (Or.inl rfl)

/-- C15, evaluated at a failing input.  The claim says that `increaseKey(k, c)`
returns false and changes nothing when `k + c` is a key of the queue.  On
`PriorityQueue(5)` after insert(1, 10), insert(5, 50), deleteMin(), insert(9, 90)
the heap holds (5, 50) and (9, 90), and the table maps key 5 to index 2 (it was
not updated by `deleteMin`) where key 9 is stored.  increaseKey(5, 4) tests the
key 9 + 4 instead of 5 + 4 = 9, returns true and turns the entry (9, 90) into
(13, 90). -/
theorem C15_increaseKey_to_a_present_key_succeeds :
    ∃ pq pq1 : PriorityQueue Nat,
      buildQueue 5 [QueueOp.insert 1 10, QueueOp.insert 5 50, QueueOp.deleteMin,
        QueueOp.insert 9 90] = some ([true, true, true, true], pq) ∧
      liveEntries pq = [(5, 50), (9, 90)] ∧
      PriorityQueue.get pq 9 = some (some 90) ∧
      HashTable.get pq.ht 5 = some (some 2) ∧
      increaseKey pq 5 4 = some (true, pq1) ∧
      liveEntries pq1 = [(5, 50), (13, 90)] := by
  refine ⟨⟨[⟨0, 0⟩, ⟨5, 50⟩, ⟨9, 90⟩, ⟨0, 0⟩, ⟨0, 0⟩, ⟨0, 0⟩],
    ⟨[⟨5, 2, Status.Occupied⟩, ⟨1, 1, Status.Deleted⟩, Pair.init, Pair.init,
      ⟨9, 2, Status.Occupied⟩], 5, 2⟩, 5, 2⟩,
    ⟨[⟨0, 0⟩, ⟨5, 50⟩, ⟨13, 90⟩, ⟨0, 0⟩, ⟨0, 0⟩, ⟨0, 0⟩],
    ⟨[⟨5, 2, Status.Deleted⟩, ⟨1, 1, Status.Deleted⟩, Pair.init, ⟨13, 2, Status.Occupied⟩,
      ⟨9, 2, Status.Occupied⟩], 5, 2⟩, 5, 2⟩,
    by decide!, by decide!, by decide!, by decide!, by decide!, by decide!⟩

/-- C16, evaluated at a failing input.  The claim says that `insert` returns
true when the key is absent and the queue is not full.  On `PriorityQueue(1)`
three rounds of insert and deleteMin (keys 5, 3, 1) all return true and leave
an empty queue whose table has three buckets, all Deleted; insert(7, 70) then
does not return: no bucket lets the loop of the table's `get(7)` exit,
whatever the number of iterations. -/
theorem C16_insert_into_emptied_queue_does_not_return :
    ∃ pq : PriorityQueue Nat,
      buildQueue 1 [QueueOp.insert 5 50, QueueOp.deleteMin, QueueOp.insert 3 30,
        QueueOp.deleteMin, QueueOp.insert 1 10, QueueOp.deleteMin] =
        some ([true, true, true, true, true, true], pq) ∧
      pq.numElements = 0 ∧ pq.maxSize = 1 ∧
      PriorityQueue.insert pq 7 70 = none ∧ PriorityQueue.get pq 7 = none ∧
      ∀ fuel, HashTable.getLoop pq.ht 7 fuel 1 (7 % pq.ht.tableSize) = none := by
  refine ⟨⟨[⟨0, 0⟩, ⟨1, 10⟩],
    ⟨[⟨3, 1, Status.Deleted⟩, ⟨1, 1, Status.Deleted⟩, ⟨5, 1, Status.Deleted⟩], 3, 0⟩, 1, 0⟩,
    by decide!, rfl, rfl, ?_, ?_, ?_⟩
  · exact (queue_calls_none_of_getPos_none _ 7 70 (HashTable.getPos_none_of_no_exit _ 7
      (by decide) (by unfold HashTable.getStops; decide))).2
  · exact (queue_calls_none_of_getPos_none _ 7 70 (HashTable.getPos_none_of_no_exit _ 7
      (by decide) (by unfold HashTable.getStops; decide))).1
  · intro fuel
    exact HashTable.getLoop_none_of_no_exit _ 7 (by decide)
      (by unfold HashTable.getStops; decide) fuel 1 _ (by decide)

/-- C17, evaluated at a failing input.  The claim says that after `remove(k)`
and the insert of a key whose probe sequence passes the bucket of `k`,
`get(k)` returns null.  On the table of prime capacity 2 built by insert(0, 10),
key 0 sits in bucket 0, which the probe sequence 1, 0 of key 1 visits.
remove(0) and insert(1, 11) return true and `get(1)` returns 11, but now bucket
0 is Deleted and bucket 1 is Occupied by key 1: no bucket is Empty, no bucket
lets the loop of `get(0)` exit, and `get(0)` does not return, whatever the
number of iterations. -/
theorem C17_get_of_removed_key_does_not_return :
    Nat.Prime 2 ∧
    ∃ t t1 t2 : HashTable Nat,
      HashTable.build 2 [HashTable.Op.insert 0 10] = some ([true], t) ∧
      HashTable.getPos t 0 = some (some 0) ∧ HashTable.get t 1 = some none ∧
      (HashTable.quadraticProb t.tableSize 1 1).2 = 0 ∧
      HashTable.remove t 0 = some (true, t1) ∧
      HashTable.insert t1 1 11 = some (true, t2) ∧
      HashTable.get t2 1 = some (some 11) ∧
      (∀ pos, pos < t2.tableSize → ¬ HashTable.getStops t2 0 pos) ∧
      HashTable.get t2 0 = none ∧
      ∀ fuel, HashTable.getLoop t2 0 fuel 1 (0 % t2.tableSize) = none := by
  have hstop : ∀ pos, pos < 2 → ¬ HashTable.getStops
      (⟨[⟨0, 10, Status.Deleted⟩, ⟨1, 11, Status.Occupied⟩], 2, 1⟩ : HashTable Nat) 0 pos := by
    unfold HashTable.getStops
    decide
  refine ⟨by norm_num,
    ⟨[⟨0, 10, Status.Occupied⟩, Pair.init], 2, 1⟩,
    ⟨[⟨0, 10, Status.Deleted⟩, Pair.init], 2, 0⟩,
    ⟨[⟨0, 10, Status.Deleted⟩, ⟨1, 11, Status.Occupied⟩], 2, 1⟩,
    by decide!, by decide!, by decide!, by decide!, by decide!, by decide!, by decide!,
    hstop, ?_, ?_⟩
  · exact HashTable.get_none_of_no_exit _ 0 (by decide) hstop
  · intro fuel
    exact HashTable.getLoop_none_of_no_exit _ 0 (by decide) hstop fuel 1 _ (by decide)

/-- C18, evaluated at a failing input.  The claim says that after
`removeAllByValue(v)` the call `get` returns null for the removed keys.  On
`HashTable(3)` after insert(0, 10), remove(0), insert(1, 11), remove(1),
insert(2, 12), the call removeAllByValue(12) returns 1 and `numElements()`
drops from 1 to 0, but no bucket is Empty any more and `get(2)` does not
return: no bucket lets its loop exit, whatever the number of iterations. -/
theorem C18_get_after_removeAllByValue_does_not_return :
    ∃ t t1 : HashTable Nat,
      HashTable.build 3 HashTable.tombstoneCalls =
        some ([true, true, true, true, true], t) ∧
      HashTable.get t 2 = some (some 12) ∧ t.numElements = 1 ∧
      HashTable.removeAllByValue t 12 = (1, t1) ∧ t1.numElements = 0 ∧
      HashTable.get t1 2 = none ∧
      ∀ fuel, HashTable.getLoop t1 2 fuel 1 (2 % t1.tableSize) = none := by
  refine ⟨⟨[⟨0, 10, Status.Deleted⟩, ⟨1, 11, Status.Deleted⟩, ⟨2, 12, Status.Occupied⟩], 3, 1⟩,
    ⟨[⟨0, 10, Status.Deleted⟩, ⟨1, 11, Status.Deleted⟩, ⟨2, 12, Status.Deleted⟩], 3, 0⟩,
    by decide!, by decide!, rfl, by decide!, rfl, ?_, ?_⟩
  · exact HashTable.get_none_of_no_exit _ 2 (by decide)
      (by unfold HashTable.getStops; decide)
  · intro fuel
    exact HashTable.getLoop_none_of_no_exit _ 2 (by decide)
      (by unfold HashTable.getStops; decide) fuel 1 _ (by decide)

/-- C19, evaluated at a failing input.  The claim says that after every
operation the table maps the key at each live index to that index.  On
`PriorityQueue(5)` after insert(1, 10), insert(2, 20), deleteMin() the only
live entry is (2, 20) at index 1, and the table maps key 2 to index 2:
`deleteMin` moves the last entry to the root and does not update the table
when `percolate` makes no swap. -/
theorem C19_table_index_is_stale_after_deleteMin :
    ∃ pq : PriorityQueue Nat,
      buildQueue 5 [QueueOp.insert 1 10, QueueOp.insert 2 20, QueueOp.deleteMin] =
        some ([true, true, true], pq) ∧
      pq.numElements = 1 ∧ liveEntries pq = [(2, 20)] ∧ pq.keyAt 1 = 2 ∧
      HashTable.get pq.ht (pq.keyAt 1) = some (some 2) := by
  refine ⟨⟨[⟨0, 0⟩, ⟨2, 20⟩, ⟨2, 20⟩, ⟨0, 0⟩, ⟨0, 0⟩, ⟨0, 0⟩],
    ⟨[Pair.init, ⟨1, 1, Status.Deleted⟩, ⟨2, 2, Status.Occupied⟩, Pair.init, Pair.init],
      5, 1⟩, 5, 1⟩,
    by decide!, rfl, by decide!, rfl, by decide!⟩

/-- C20, evaluated at a failing input.  The claim says that after every
operation the keys at the indices 1 to `numElements()` are in heap order.  On
`PriorityQueue(5)` the calls insert(1, 10), insert(2, 20), deleteMin(),
insert(4, 40), remove(2), deleteMin(), remove(4) all return true.  remove(2)
takes out the entry of key 4 (the table maps both keys to index 2) and leaves
key 4 in the table, so after the heap is empty remove(4) still finds key 4 and
decrements `num_element` from 0 to 4294967295.  Then index 4 is at most
`numElements()`, and the key 2 at index 2 is larger than the key 0 at index
4. -/
theorem C20_heap_order_fails_after_remove_on_empty_heap :
    ∃ pq : PriorityQueue Nat,
      buildQueue 5 [QueueOp.insert 1 10, QueueOp.insert 2 20, QueueOp.deleteMin,
        QueueOp.insert 4 40, QueueOp.remove 2, QueueOp.deleteMin, QueueOp.remove 4] =
        some ([true, true, true, true, true, true, true], pq) ∧
      pq.numElements = 4294967295 ∧ pq.maxSize = 5 ∧
      pq.keyAt (4 / 2) = 2 ∧ pq.keyAt 4 = 0 ∧
      ¬ IsHeap pq.keyAt pq.numElements := by
  refine ⟨⟨[⟨0, 0⟩, ⟨0, 0⟩, ⟨2, 20⟩, ⟨0, 0⟩, ⟨0, 0⟩, ⟨0, 0⟩],
    ⟨[Pair.init, ⟨1, 1, Status.Deleted⟩, ⟨2, 2, Status.Deleted⟩, Pair.init,
      ⟨4, 2, Status.Deleted⟩], 5, 0⟩, 5, 4294967295⟩,
    by decide!, rfl, rfl, rfl, rfl, ?_⟩
  intro h
  have h4 := h 4 (by decide) (by decide)
  revert h4
  decide

/-! ## Third part: load factor, termination and capacity -/

/-- C21, evaluated at a failing input.  The claim says that after each
completed insert `numElements() / tableSize()` is strictly less than 0.5.  On
`HashTable(2)`, of prime capacity 2, insert(0, 10) returns true without a rehash,
because `(0 + 1) / 2 > 0.5` is false, and leaves one element in two buckets: the
load factor is exactly 0.5. -/
theorem C21_load_factor_reaches_one_half :
    Nat.Prime 2 ∧
    ∃ t : HashTable Nat,
      HashTable.build 2 [HashTable.Op.insert 0 10] = some ([true], t) ∧
      t.numElements = 1 ∧ t.tableSize = 2 ∧
      2 * t.numElements = t.tableSize ∧ ¬ 2 * t.numElements < t.tableSize := by
  refine ⟨by norm_num, ⟨[⟨0, 10, Status.Occupied⟩, Pair.init], 2, 1⟩, by decide!, rfl, rfl,
    rfl, by decide⟩

/-- C22, evaluated at a failing input.  The claim says that `get`, `insert`,
`update` and `remove` terminate on every reachable table.  On `HashTable(3)` the
calls insert(0), remove(0), insert(1), remove(1), insert(2), remove(2) all
return true and leave three Deleted buckets and no element.  For the key 7,
which was never inserted, no bucket lets the loop of `get(7)` exit, whatever
the number of iterations, and `insert(7, v)`, `update(7, v)` and `remove(7)`,
which call `get(7)` first, do not return either. -/
theorem C22_get_insert_update_remove_do_not_return :
    ∃ t : HashTable Nat,
      HashTable.build 3 HashTable.churnCalls =
        some ([true, true, true, true, true, true], t) ∧
      t.numElements = 0 ∧ HashTable.contents t = [] ∧
      (∀ fuel, HashTable.getLoop t 7 fuel 1 (7 % t.tableSize) = none) ∧
      HashTable.get t 7 = none ∧ HashTable.insert t 7 70 = none ∧
      HashTable.update t 7 70 = none ∧ HashTable.remove t 7 = none := by
  refine ⟨⟨[⟨0, 10, Status.Deleted⟩, ⟨1, 11, Status.Deleted⟩, ⟨2, 12, Status.Deleted⟩], 3, 0⟩,
    by decide!, rfl, by decide!, ?_, ?_⟩
  · intro fuel
    exact HashTable.getLoop_none_of_no_exit _ 7 (by decide)
      (by unfold HashTable.getStops; decide) fuel 1 _ (by decide)
  · exact HashTable.calls_none_of_getPos_none _ 7 70 (HashTable.getPos_none_of_no_exit _ 7
      (by decide) (by unfold HashTable.getStops; decide))

namespace HashTable

variable {V : Type} [Inhabited V]

/-- For a prime capacity the first `(m - 1) / 2 + 1` probe positions of a key
are pairwise distinct. -/
theorem probe_distinct (m key i j : Nat) (hp : Nat.Prime m) (hij : i < j)
    (hj : j ≤ (m - 1) / 2) :
    (key % m + i ^ 2) % m ≠ (key % m + j ^ 2) % m := by
  intro h
  have h1 : key % m + i ^ 2 ≡ key % m + j ^ 2 [MOD m] := h
  have h2 : i ^ 2 ≡ j ^ 2 [MOD m] := Nat.ModEq.add_left_cancel' _ h1
  have h3 : m ∣ j ^ 2 - i ^ 2 :=
    (Nat.modEq_iff_dvd' (Nat.pow_le_pow_left (Nat.le_of_lt hij) 2)).1 h2
  rw [Nat.sq_sub_sq] at h3
  have h2m := hp.two_le
  rcases (hp.dvd_mul).1 h3 with h4 | h4
  · have := Nat.le_of_dvd (by omega) h4
    omega
  · have := Nat.le_of_dvd (by omega) h4
    omega

theorem insertLoop_eq_none_iff (t : HashTable V) (key fuel : Nat) :
    ∀ i pos, insertLoop t key fuel i pos = none ↔
      ∀ j, j < fuel → (t.slot (probeAt t.table_size key i pos j)).stat = Status.Occupied := by
  induction fuel with
  | zero => intro i pos; simp [insertLoop]
  | succ fuel ih =>
    intro i pos
    rw [insertLoop]
    by_cases h1 : (t.slot pos).stat = Status.Occupied
    · rw [if_pos h1, ih]
      constructor
      · intro h j hj
        cases j with
        | zero => exact h1
        | succ j =>
          rw [probeAt_succ]
          exact h j (by omega)
      · intro h j hj
        rw [← probeAt_succ]
        exact h (j + 1) (by omega)
    · rw [if_neg h1]
      constructor
      · intro h; cases h
      · intro h
        exact absurd (h 0 (Nat.succ_pos _)) h1

/-- Below load one half, one of the first `(m - 1) / 2 + 1` buckets of the probe
sequence of a key is not Occupied. -/
theorem exists_probe_not_occupied (t : HashTable V) (key : Nat) (hp : Nat.Prime t.table_size)
    (hload : 2 * (occupiedCount t + 1) ≤ t.table_size) :
    ∃ j, j ≤ (t.table_size - 1) / 2 ∧
      (t.slot ((key % t.table_size + j ^ 2) % t.table_size)).stat ≠ Status.Occupied := by
  by_contra hall
  have hocc : ∀ j, j ≤ (t.table_size - 1) / 2 →
      (t.slot ((key % t.table_size + j ^ 2) % t.table_size)).stat = Status.Occupied := by
    intro j hj
    by_contra hne
    exact hall ⟨j, hj, hne⟩
  have hm : 0 < t.table_size := hp.pos
  let probe : Nat → Nat := fun j => (key % t.table_size + j ^ 2) % t.table_size
  have hinj : Set.InjOn probe ↑(Finset.range ((t.table_size - 1) / 2 + 1)) := by
    intro a ha b hb hab
    have ha : a < (t.table_size - 1) / 2 + 1 := Finset.mem_range.1 ha
    have hb : b < (t.table_size - 1) / 2 + 1 := Finset.mem_range.1 hb
    by_contra hne
    rcases Nat.lt_or_gt_of_ne hne with hlt | hgt
    · exact probe_distinct t.table_size key a b hp hlt (by omega) hab
    · exact probe_distinct t.table_size key b a hp hgt (by omega) hab.symm
  have hcard := Finset.card_image_of_injOn hinj
  have hsub : Finset.image probe (Finset.range ((t.table_size - 1) / 2 + 1)) ⊆
      ((List.range t.table_size).filter
        fun i => (t.slot i).stat = Status.Occupied).toFinset := by
    intro x hx
    obtain ⟨j, hj, hjx⟩ := Finset.mem_image.1 hx
    have hj : j < (t.table_size - 1) / 2 + 1 := Finset.mem_range.1 hj
    rw [List.mem_toFinset, List.mem_filter]
    refine ⟨List.mem_range.2 ?_, ?_⟩
    · rw [← hjx]
      exact Nat.mod_lt _ hm
    · rw [← hjx]
      exact decide_eq_true (hocc j (by omega))
  have hle := Finset.card_le_card hsub
  rw [hcard, Finset.card_range,
    List.toFinset_card_of_nodup ((List.nodup_range _).filter _)] at hle
  have hlen : ((List.range t.table_size).filter
      fun i => (t.slot i).stat = Status.Occupied).length = occupiedCount t := rfl
  rw [hlen] at hle
  have h2m := hp.two_le
  omega

end HashTable

namespace HashTable

theorem tableOf_slot (m n : Nat) (hit : Nat → Bool) (p : Nat) (hp : p < m) :
    (tableOf m hit n).slot p =
      if hit p then ⟨p + m, 0, Status.Occupied⟩ else Pair.init := by
  unfold slot tableOf
  rw [List.getD_eq_getElem?_getD, List.getElem?_map, List.getElem?_range hp]
  rfl

theorem tableOf_occupied_iff (m n : Nat) (hit : Nat → Bool) (p : Nat) (hp : p < m) :
    ((tableOf m hit n).slot p).stat = Status.Occupied ↔ hit p = true := by
  rw [tableOf_slot m n hit p hp]
  by_cases h : hit p = true
  · simp [h]
  · simp [h, Pair.init]

theorem tableOf_noDeleted (m n : Nat) (hit : Nat → Bool) : NoDeleted (tableOf m hit n) := by
  intro p hp
  have hp1 : p < m := hp
  rw [tableOf_slot m n hit p hp1]
  by_cases h : hit p = true
  · simp [h]
  · simp [h, Pair.init]

theorem tableOf_occupiedCount (m n : Nat) (hit : Nat → Bool) :
    occupiedCount (tableOf m hit n) = ((List.range m).filter hit).length := by
  unfold occupiedCount
  show ((List.range m).filter
    fun i => decide (((tableOf m hit n).slot i).stat = Status.Occupied)).length = _
  congr 1
  apply List.filter_congr
  intro p hp
  have hp1 : p < m := List.mem_range.1 hp
  by_cases h : hit p = true
  · rw [h]
    exact decide_eq_true ((tableOf_occupied_iff m n hit p hp1).2 h)
  · have h0 : hit p = false := by simpa using h
    rw [h0]
    exact decide_eq_false (fun hx => h ((tableOf_occupied_iff m n hit p hp1).1 hx))

/-- The first 65551 iterations of a probe loop for key 0 in a table of capacity
131101 examine at most 65549 buckets: the iterations 65536 and 65540 examine
the buckets of the iterations 0 and 7941. -/
theorem wrapHit_count : ((List.range 131101).filter wrapHit).length ≤ 65549 := by
  have h1 : wrapProbe 65536 = wrapProbe 0 := by norm_num [wrapProbe, toUnsigned]
  have h2 : wrapProbe 65540 = wrapProbe 7941 := by norm_num [wrapProbe, toUnsigned]
  have hsub : ((List.range 131101).filter wrapHit).toFinset ⊆
      Finset.image wrapProbe (((Finset.range 65551).erase 65536).erase 65540) := by
    intro p hp
    rw [List.mem_toFinset, List.mem_filter] at hp
    obtain ⟨_, hhit⟩ := hp
    unfold wrapHit at hhit
    rw [List.any_eq_true] at hhit
    obtain ⟨j, hj, hjp⟩ := hhit
    have hj1 : j < 65551 := List.mem_range.1 hj
    have hjp1 : wrapProbe j = p := by simpa using hjp
    rw [Finset.mem_image]
    by_cases e1 : j = 65536
    · refine ⟨0, ?_, ?_⟩
      · rw [Finset.mem_erase, Finset.mem_erase, Finset.mem_range]
        omega
      · rw [← hjp1, e1, h1]
    · by_cases e2 : j = 65540
      · refine ⟨7941, ?_, ?_⟩
        · rw [Finset.mem_erase, Finset.mem_erase, Finset.mem_range]
          omega
        · rw [← hjp1, e2, h2]
      · refine ⟨j, ?_, hjp1⟩
        rw [Finset.mem_erase, Finset.mem_erase, Finset.mem_range]
        exact ⟨e2, e1, hj1⟩
  have hcard : (((Finset.range 65551).erase 65536).erase 65540).card = 65549 := by
    rw [Finset.card_erase_of_mem, Finset.card_erase_of_mem, Finset.card_range]
    · rw [Finset.mem_range]
      omega
    · rw [Finset.mem_erase, Finset.mem_range]
      omega
  have hle := Finset.card_le_card hsub
  rw [List.toFinset_card_of_nodup ((List.nodup_range _).filter _)] at hle
  exact Nat.le_trans hle (Nat.le_trans Finset.card_image_le (Nat.le_of_eq hcard))

/-- The `j`-th iteration of a probe loop for key 0 on `wrapTable` examines the
bucket `wrapProbe j`, which is Occupied when `j < 65551`. -/
theorem wrapTable_probe (j : Nat) (hj : j < 65551) :
    probeAt 131101 0 1 0 j = wrapProbe j ∧ wrapProbe j < 131101 ∧
      wrapTable.slot (wrapProbe j) = ⟨wrapProbe j + 131101, 0, Status.Occupied⟩ := by
  have hlt : wrapProbe j < 131101 := Nat.mod_lt _ (by decide)
  have hhit : wrapHit (wrapProbe j) = true := by
    unfold wrapHit
    rw [List.any_eq_true]
    exact ⟨j, List.mem_range.2 hj, by simp⟩
  refine ⟨?_, hlt, ?_⟩
  · have h := probeAt_start 131101 0 j (by decide) (by decide)
    have h0 : (0 : Nat) % 131101 = 0 := by decide
    rw [h0, Nat.zero_add] at h
    exact h
  · unfold wrapTable
    rw [tableOf_slot 131101 65544 wrapHit _ hlt, hhit]
    rfl

end HashTable

/-- C23, counterexample.  131101 is prime and `wrapTable` has this capacity, no
Deleted bucket and a number `n` of Occupied buckets with `(n + 1) / m <= 0.5`.
The sum `key % m + i * i` no longer fits an `unsigned` from `i = 65536` on, and
the iteration 65536 of a probe loop for key 0 examines the bucket of iteration
0 again.  All buckets examined by the first `(m + 1) / 2 = 65551` iterations
are Occupied by other keys, so neither the loop of `insert` nor the loop of
`get` has left after `(m + 1) / 2` iterations. -/
theorem C23_probe_loops_run_past_half_of_capacity_131101 :
    Nat.Prime HashTable.wrapTable.tableSize ∧ HashTable.wrapTable.tableSize = 131101 ∧
    (HashTable.wrapTable.tableSize + 1) / 2 = 65551 ∧
    HashTable.NoDeleted HashTable.wrapTable ∧
    2 * (HashTable.occupiedCount HashTable.wrapTable + 1) ≤ HashTable.wrapTable.tableSize ∧
    (65536 ≤ (HashTable.wrapTable.tableSize - 1) / 2 ∧
      HashTable.probeAt 131101 0 1 (0 % 131101) 65536 =
        HashTable.probeAt 131101 0 1 (0 % 131101) 0) ∧
    HashTable.insertLoop HashTable.wrapTable 0 65551 1 (0 % 131101) = none ∧
    HashTable.getLoop HashTable.wrapTable 0 65551 1 (0 % 131101) = none := by
  have hprime : Nat.Prime 131101 := by norm_num
  refine ⟨hprime, rfl, rfl, HashTable.tableOf_noDeleted _ _ _, ?_, ⟨by decide, ?_⟩, ?_, ?_⟩
  · have h1 : HashTable.occupiedCount HashTable.wrapTable =
        ((List.range 131101).filter HashTable.wrapHit).length :=
      HashTable.tableOf_occupiedCount 131101 65544 HashTable.wrapHit
    have h2 := HashTable.wrapHit_count
    have h3 : HashTable.wrapTable.tableSize = 131101 := rfl
    rw [h3, h1]
    omega
  · show HashTable.probeAt 131101 0 1 0 65536 = HashTable.probeAt 131101 0 1 0 0
    rw [(HashTable.wrapTable_probe 65536 (by decide)).1,
      (HashTable.wrapTable_probe 0 (by decide)).1]
    norm_num [HashTable.wrapProbe, HashTable.toUnsigned]
  · show HashTable.insertLoop HashTable.wrapTable 0 65551 1 0 = none
    rw [HashTable.insertLoop_eq_none_iff]
    intro j hj
    obtain ⟨h1, _, h3⟩ := HashTable.wrapTable_probe j hj
    show (HashTable.wrapTable.slot (HashTable.probeAt 131101 0 1 0 j)).stat = Status.Occupied
    rw [h1, h3]
  · show HashTable.getLoop HashTable.wrapTable 0 65551 1 0 = none
    rw [HashTable.getLoop_eq_none_iff]
    intro j hj
    obtain ⟨h1, _, h3⟩ := HashTable.wrapTable_probe j hj
    show ¬ HashTable.getStops HashTable.wrapTable 0 (HashTable.probeAt 131101 0 1 0 j)
    unfold HashTable.getStops
    rw [h1, h3]
    simp

/-- C23, amended: for a prime capacity `m` of at most 131071, a key and a table
without Deleted buckets whose number `n` of Occupied buckets satisfies
`(n + 1) / m <= 0.5`, the buckets that the probe loops examine in their
iterations `i = 0 .. (m - 1) / 2` are `(key mod m + i * i) mod m` and pairwise
distinct; the loop of `insert` leaves at a bucket of the table that is not
Occupied, and the loop of `get` leaves at an Empty bucket (null) or at an
Occupied bucket holding the key, both within `(m + 1) / 2` iterations, so
`get(key)` returns. -/
theorem C23_probe_loops_stop_within_half_the_capacity {V : Type} [Inhabited V]
    (t : HashTable V) (key : Nat) (hp : Nat.Prime t.tableSize)
    (hcap : t.tableSize ≤ 131071)
    (hnd : HashTable.NoDeleted t)
    (hload : 2 * (HashTable.occupiedCount t + 1) ≤ t.tableSize) :
    (∀ i, i ≤ (t.tableSize - 1) / 2 →
      HashTable.probeAt t.tableSize key 1 (key % t.tableSize) i =
        (key % t.tableSize + i * i) % t.tableSize) ∧
    (∀ i j, i < j → j ≤ (t.tableSize - 1) / 2 →
      HashTable.probeAt t.tableSize key 1 (key % t.tableSize) i ≠
        HashTable.probeAt t.tableSize key 1 (key % t.tableSize) j) ∧
    (∃ pos, HashTable.insertLoop t key ((t.tableSize + 1) / 2) 1 (key % t.tableSize) =
        some pos ∧ pos < t.tableSize ∧ (t.slot pos).stat ≠ Status.Occupied) ∧
    (∃ r, HashTable.getLoop t key ((t.tableSize + 1) / 2) 1 (key % t.tableSize) = some r ∧
      (r = none ∨ ∃ pos, r = some pos ∧ pos < t.tableSize ∧ (t.slot pos).key = key ∧
        (t.slot pos).stat = Status.Occupied)) ∧
    HashTable.get t key ≠ none := by
  have hp1 : Nat.Prime t.table_size := hp
  have hm : 0 < t.table_size := hp1.pos
  have hcap1 : t.table_size ≤ 131071 := hcap
  have hload1 : 2 * (HashTable.occupiedCount t + 1) ≤ t.table_size := hload
  show (∀ i, i ≤ (t.table_size - 1) / 2 →
      HashTable.probeAt t.table_size key 1 (key % t.table_size) i =
        (key % t.table_size + i * i) % t.table_size) ∧
    (∀ i j, i < j → j ≤ (t.table_size - 1) / 2 →
      HashTable.probeAt t.table_size key 1 (key % t.table_size) i ≠
        HashTable.probeAt t.table_size key 1 (key % t.table_size) j) ∧
    (∃ pos, HashTable.insertLoop t key ((t.table_size + 1) / 2) 1 (key % t.table_size) =
        some pos ∧ pos < t.table_size ∧ (t.slot pos).stat ≠ Status.Occupied) ∧
    (∃ r, HashTable.getLoop t key ((t.table_size + 1) / 2) 1 (key % t.table_size) = some r ∧
      (r = none ∨ ∃ pos, r = some pos ∧ pos < t.table_size ∧ (t.slot pos).key = key ∧
        (t.slot pos).stat = Status.Occupied)) ∧
    HashTable.get t key ≠ none
  have hstart : key % t.table_size < t.table_size := Nat.mod_lt _ hm
  -- in these iterations the sum fits an unsigned
  have hfit : ∀ i, i ≤ (t.table_size - 1) / 2 →
      key % t.table_size + i ^ 2 < 4294967296 := by
    intro i hi
    have h1 : i ≤ 65535 := by omega
    have h2 : i ^ 2 ≤ 65535 ^ 2 := Nat.pow_le_pow_left h1 2
    have h3 : (65535 : Nat) ^ 2 = 4294836225 := by norm_num
    omega
  have hclosed : ∀ i, i ≤ (t.table_size - 1) / 2 →
      HashTable.probeAt t.table_size key 1 (key % t.table_size) i =
        (key % t.table_size + i ^ 2) % t.table_size :=
    fun i hi => HashTable.probeAt_start_of_lt _ _ _ hm (hfit i hi)
  obtain ⟨j, hj, hfree⟩ := HashTable.exists_probe_not_occupied t key hp1 hload1
  have hjf : j < (t.table_size + 1) / 2 := by omega
  rw [← hclosed j hj] at hfree
  -- the loop of get leaves within the bound
  have hget : HashTable.getLoop t key ((t.table_size + 1) / 2) 1 (key % t.table_size) ≠
      none := by
    intro hnone
    have hns := (HashTable.getLoop_eq_none_iff t key _ 1 _).1 hnone j hjf
    apply hns
    left
    have hlt := HashTable.probeAt_start_lt t.table_size key j hm
    cases hs : (t.slot (HashTable.probeAt t.table_size key 1 (key % t.table_size) j)).stat with
    | Empty => rfl
    | Deleted => exact absurd hs (hnd _ hlt)
    | Occupied => exact absurd hs hfree
  refine ⟨?_, ?_, ?_, ?_, ?_⟩
  · intro i hi
    rw [hclosed i hi, Nat.pow_two]
  · intro a b hab hb
    rw [hclosed a (by omega), hclosed b hb]
    exact HashTable.probe_distinct _ key a b hp1 hab hb
  · cases hi : HashTable.insertLoop t key ((t.table_size + 1) / 2) 1 (key % t.table_size) with
    | none =>
      exact absurd ((HashTable.insertLoop_eq_none_iff t key _ 1 _).1 hi j hjf) hfree
    | some pos =>
      exact ⟨pos, rfl, HashTable.insertLoop_spec t key _ hm 1 _ pos hstart hi⟩
  · cases hg : HashTable.getLoop t key ((t.table_size + 1) / 2) 1 (key % t.table_size) with
    | none => exact absurd hg hget
    | some r =>
      refine ⟨r, rfl, ?_⟩
      cases r with
      | none => exact Or.inl rfl
      | some pos =>
        obtain ⟨h1, h2, h3⟩ := HashTable.getLoop_found t key _ hm 1 _ pos hstart hg
        exact Or.inr ⟨pos, rfl, h3, h1, h2⟩
  · intro hnone
    have hpos : HashTable.getPos t key = none := by
      unfold HashTable.get at hnone
      cases hq : HashTable.getPos t key with
      | none => rfl
      | some r => rw [hq] at hnone; cases hnone
    have hall := (HashTable.getLoop_eq_none_iff t key _ 1 _).1 hpos
    apply hget
    rw [HashTable.getLoop_eq_none_iff]
    intro i hi
    refine hall i ?_
    show i < 4294967296
    omega

/-- C23, amended, on a table of capacity 5 that holds one pair in bucket 0, for
the key 5, whose first probe hits that bucket. -/
theorem C23_probe_loops_stop_within_half_the_capacity_witness :
    Nat.Prime HashTable.probeTable.tableSize ∧ HashTable.probeTable.tableSize ≤ 131071 ∧
    HashTable.NoDeleted HashTable.probeTable ∧
    2 * (HashTable.occupiedCount HashTable.probeTable + 1) ≤ HashTable.probeTable.tableSize ∧
    HashTable.insertLoop HashTable.probeTable 5 3 1 0 = some 1 ∧
    HashTable.getLoop HashTable.probeTable 5 3 1 0 = some none ∧
    ((∀ i, i ≤ (HashTable.probeTable.tableSize - 1) / 2 →
      HashTable.probeAt HashTable.probeTable.tableSize 5 1
          (5 % HashTable.probeTable.tableSize) i =
        (5 % HashTable.probeTable.tableSize + i * i) % HashTable.probeTable.tableSize) ∧
    (∀ i j, i < j → j ≤ (HashTable.probeTable.tableSize - 1) / 2 →
      HashTable.probeAt HashTable.probeTable.tableSize 5 1
          (5 % HashTable.probeTable.tableSize) i ≠
        HashTable.probeAt HashTable.probeTable.tableSize 5 1
          (5 % HashTable.probeTable.tableSize) j) ∧
    (∃ pos, HashTable.insertLoop HashTable.probeTable 5
        ((HashTable.probeTable.tableSize + 1) / 2) 1
        (5 % HashTable.probeTable.tableSize) = some pos ∧
      pos < HashTable.probeTable.tableSize ∧
      (HashTable.probeTable.slot pos).stat ≠ Status.Occupied) ∧
    (∃ r, HashTable.getLoop HashTable.probeTable 5
        ((HashTable.probeTable.tableSize + 1) / 2) 1
        (5 % HashTable.probeTable.tableSize) = some r ∧
      (r = none ∨ ∃ pos, r = some pos ∧ pos < HashTable.probeTable.tableSize ∧
        (HashTable.probeTable.slot pos).key = 5 ∧
        (HashTable.probeTable.slot pos).stat = Status.Occupied)) ∧
    HashTable.get HashTable.probeTable 5 ≠ none) :=
  ⟨by show Nat.Prime 5; norm_num, by decide, by unfold HashTable.NoDeleted; decide, by decide,
    by decide, by decide,
    C23_probe_loops_stop_within_half_the_capacity HashTable.probeTable 5
      (by show Nat.Prime 5; norm_num) (by decide) (by unfold HashTable.NoDeleted; decide)
      (by decide)⟩


/-! ## Lemmas on the capacity of the internal table -/

namespace HashTable

variable {V : Type} [Inhabited V]

end HashTable

namespace PriorityQueue

variable {V : Type} [Inhabited V]

end PriorityQueue


end HashPQ
